import Mathlib

/-!
# NPDECODES: assembly routines and point evaluation

A shallow embedding of the numerical routines of the repository:

* `SimpleLinearFiniteElements` (`simplelinearfiniteelements.cc`): `getArea`,
  `gradbarycoordinates`, the element matrices, `assemLoad_LFE`, `GalerkinAssembly`;
* `WaveABC2D` (`waveabc2d.h`): the constructor of `WaveABC2DTimestepper` and its member
  function `solveWaveABC2D`;
* `StableEvaluationAtAPoint` (`stableevaluationatapoint.cc`): `FundamentalSolution`
  and `StablePointEvaluation`.

In the assembly routines `double` is idealised as an arbitrary linearly ordered
field `K` (exact arithmetic; all the definitions run on `ℚ`); `int`/`unsigned` indices and
sizes are natural numbers. In `StableEvaluationAtAPoint` every arithmetic operation rounds
its exact result with the function `round` of the parameter `CMath`: the identity gives
exact arithmetic, `roundToDouble` IEEE 754 binary64 with gradual underflow.
-/

set_option autoImplicit false
set_option linter.dupNamespace false

/-! ## The parts of the linear algebra library the routines use -/

namespace Eigen

/-- An `Eigen::Triplet<double>`: the entry `value` at position `(row, col)`. -/
structure Triplet (K : Type) where
  row : Nat
  col : Nat
  value : K

/-- A matrix with a dynamic number of rows and `n` columns
(`Eigen::Matrix<α, Eigen::Dynamic, n>`): its row count and its coefficient accessor. -/
structure MatrixX (α : Type) (n : Nat) where
  rows : Nat
  coeff : Nat → Fin n → α

/-- An `Eigen::VectorXd`: its size and its coefficient accessor. -/
structure VectorXd (K : Type) where
  size : Nat
  coeff : Nat → K

/-- An `Eigen::SparseMatrix<double>`: its dimensions and its coefficient accessor. -/
structure SparseMatrix (K : Type) where
  rows : Nat
  cols : Nat
  coeff : Nat → Nat → K

/-- The status `Eigen::ComputationInfo` a decomposition reports through `info()`. -/
inductive ComputationInfo where
  | Success
  | NumericalIssue
  | NoConvergence
  | InvalidInput
  deriving DecidableEq, Repr

/-- An `Eigen::SparseLU` solver after `compute`: the status it reports and, for a
successful factorisation, the solution map `b ↦ solve(b)`. -/
structure SparseLU (K : Type) where
  info : ComputationInfo
  solve : VectorXd K → VectorXd K

variable {K : Type} [LinearOrderedField K]

/-- The value `setFromTriplets` stores at `(r, c)`: the sum of the values of all the
triplets of the list that sit at `(r, c)` (duplicates are summed up). -/
def tripletSum (ts : List (Triplet K)) (r c : Nat) : K :=
  ((ts.filter (fun t => t.row = r ∧ t.col = c)).map Triplet.value).sum

/-- The zero vector `Eigen::VectorXd::Zero(n)`. -/
def VectorXd.Zero (n : Nat) : VectorXd K :=
  { size := n, coeff := fun _ => 0 }

/-- The statement `phi(idx) += v`. -/
def VectorXd.addTo (phi : VectorXd K) (idx : Nat) (v : K) : VectorXd K :=
  { phi with coeff := Function.update phi.coeff idx (phi.coeff idx + v) }

/-- The constructor `Eigen::SparseMatrix<double> A(rows, cols)`: the zero matrix. -/
def SparseMatrix.zero (rows cols : Nat) : SparseMatrix K :=
  { rows := rows, cols := cols, coeff := fun _ _ => 0 }

/-- The call `A.setFromTriplets(begin, end)`: the former contents are dropped, the
dimensions are kept and the entry at `(r, c)` is the sum of the triplets at `(r, c)`. -/
def SparseMatrix.setFromTriplets (A : SparseMatrix K) (ts : List (Triplet K)) :
    SparseMatrix K :=
  { A with coeff := fun r c => tripletSum ts r c }

/-- The call `A.makeCompressed()` changes the storage scheme only. -/
def SparseMatrix.makeCompressed (A : SparseMatrix K) : SparseMatrix K := A

/-- The declaration `Eigen::VectorXd v(n)`: a vector of size `n` whose coefficients are
not initialised; `content` is what the memory happens to hold. -/
def VectorXd.alloc (n : Nat) (content : Nat → K) : VectorXd K :=
  { size := n, coeff := content }

/-- The assignment `v.head(n) = w`: the first `n` coefficients become those of `w`. -/
def VectorXd.setHead (v : VectorXd K) (n : Nat) (w : VectorXd K) : VectorXd K :=
  { v with coeff := fun i => if i < n then w.coeff i else v.coeff i }

/-- The assignment `v.tail(n) = w`: the last `n` coefficients become those of `w`. -/
def VectorXd.setTail (v : VectorXd K) (n : Nat) (w : VectorXd K) : VectorXd K :=
  { v with coeff := fun i =>
      if v.size - n ≤ i ∧ i < v.size then w.coeff (i - (v.size - n)) else v.coeff i }

/-- The value `v.tail(n)`: the vector of the last `n` coefficients. -/
def VectorXd.tail (v : VectorXd K) (n : Nat) : VectorXd K :=
  { size := n, coeff := fun i => v.coeff (v.size - n + i) }

/-- The product `A * v` of a sparse matrix and a vector. -/
def SparseMatrix.mulVec (A : SparseMatrix K) (v : VectorXd K) : VectorXd K :=
  { size := A.rows, coeff := fun r => ∑ c in Finset.range A.cols, A.coeff r c * v.coeff c }

/-- The cofactor `cofactor_3x3<i, j>(m)` the 3x3 inverse of the library is built from: the
2x2 minor on the rows `i + 1`, `i + 2` and the columns `j + 1`, `j + 2`, counted modulo 3. -/
def cofactor_3x3 (m : Matrix (Fin 3) (Fin 3) K) (i j : Fin 3) : K :=
  m (i + 1) (j + 1) * m (i + 2) (j + 2) - m (i + 1) (j + 2) * m (i + 2) (j + 1)

/-- The determinant the 3x3 inverse of the library divides by: the expansion along
column 0. -/
def determinant (m : Matrix (Fin 3) (Fin 3) K) : K :=
  cofactor_3x3 m 0 0 * m 0 0 + cofactor_3x3 m 1 0 * m 1 0 + cofactor_3x3 m 2 0 * m 2 0

/-- The call `m.inverse()` for a fixed-size 3x3 matrix: the transposed cofactor matrix
times the reciprocal of the determinant. -/
def inverse (m : Matrix (Fin 3) (Fin 3) K) : Matrix (Fin 3) (Fin 3) K :=
  let invdet := 1 / determinant m
  fun i j => cofactor_3x3 m j i * invdet

end Eigen

/-! ## SimpleLinearFiniteElements -/

namespace SimpleLinearFiniteElements

open Eigen

/-- A triangular mesh (`TriaMesh2D`, declared in `tria_mesh_2D.h`): row `v` of `vertices`
holds the two coordinates of vertex `v`, row `i` of `elements` the three vertex indices of
triangle `i`. -/
structure TriaMesh2D (K : Type) where
  vertices : MatrixX K 2
  elements : MatrixX Nat 3

variable {K : Type} [LinearOrderedField K]

/-- Modelled from the spec: `TriaMesh2D::operator[]` is declared in `tria_mesh_2D.h`, which
is not among the sources; `mesh[i]` is triangle `i` as a 2x3 matrix whose column `j` holds
the coordinates of vertex `elements(i, j)`, the matrix `GalerkinAssembly` builds by hand. -/
def TriaMesh2D.get (mesh : TriaMesh2D K) (i : Nat) : Matrix (Fin 2) (Fin 3) K :=
  fun d j => mesh.vertices.coeff (mesh.elements.coeff i j) d

/-- The function `getArea`: the area of a triangle given by the 2x3 matrix of its vertex
coordinates; `0.5` is the fraction `1 / 2`. -/
def getArea (triangle : Matrix (Fin 2) (Fin 3) K) : K :=
  |1 / 2 *
    ((triangle 0 1 - triangle 0 0) * (triangle 1 2 - triangle 1 1) -
     (triangle 0 2 - triangle 0 1) * (triangle 1 1 - triangle 1 0))|

/-- The function `gradbarycoordinates`: `X` has the column of ones as column 0 and the
transposed `triangle` as columns 1 and 2; the result is the block of the rows 1 and 2 of
its inverse. -/
def gradbarycoordinates (triangle : Matrix (Fin 2) (Fin 3) K) : Matrix (Fin 2) (Fin 3) K :=
  let X : Matrix (Fin 3) (Fin 3) K := fun i => ![1, triangle 0 i, triangle 1 i]
  ![inverse X 1, inverse X 2]

/-- The function `ElementMatrix_Lapl_LFE`: the element matrix for the Laplacian,
`getArea(triangle) * X.transpose() * X`. -/
def ElementMatrix_Lapl_LFE (triangle : Matrix (Fin 2) (Fin 3) K) : Matrix (Fin 3) (Fin 3) K :=
  let X := gradbarycoordinates triangle
  (getArea triangle • X.transpose) * X

/-- The function `ElementMatrix_Mass_LFE`: the body declares the local `element_matrix` and
returns it; between the two stands the placeholder `// Your code goes here` only. The
parameter `element_matrix` is the content the uninitialised local happens to have. -/
def ElementMatrix_Mass_LFE (element_matrix : Matrix (Fin 3) (Fin 3) K)
    (_triangle : Matrix (Fin 2) (Fin 3) K) : Matrix (Fin 3) (Fin 3) K :=
  element_matrix

/-- The function `ElementMatrix_LaplMass_LFE`: the sum of the two element matrices. -/
def ElementMatrix_LaplMass_LFE (element_matrix : Matrix (Fin 3) (Fin 3) K)
    (triangle : Matrix (Fin 2) (Fin 3) K) : Matrix (Fin 3) (Fin 3) K :=
  ElementMatrix_Lapl_LFE triangle + ElementMatrix_Mass_LFE element_matrix triangle

/-- The function `assemLoad_LFE`: the load vector, assembled triangle by triangle. -/
def assemLoad_LFE (mesh : TriaMesh2D K) (f : (Fin 2 → K) → K) : VectorXd K :=
  let M := mesh.elements.rows
  let N := mesh.vertices.rows
  let phi : VectorXd K := VectorXd.Zero N
  (List.range M).foldl
    (fun phi i =>
      let triangle := mesh.get i
      let factor := getArea triangle / 3
      (List.finRange 3).foldl
        (fun phi j =>
          phi.addTo (mesh.elements.coeff i j) (factor * f (fun d => triangle d j)))
        phi)
    phi

/-- The function `GalerkinAssembly`: the Galerkin matrix, built from the triplets of all
the element matrices. -/
def GalerkinAssembly (mesh : TriaMesh2D K)
    (getElementMatrix : Matrix (Fin 2) (Fin 3) K → Matrix (Fin 3) (Fin 3) K) :
    SparseMatrix K :=
  let N := mesh.vertices.rows
  let M := mesh.elements.rows
  let triplets : List (Triplet K) :=
    (List.range M).foldl
      (fun triplets i =>
        let element : Fin 3 → Nat := mesh.elements.coeff i
        let triangle : Matrix (Fin 2) (Fin 3) K :=
          fun d j => mesh.vertices.coeff (element j) d
        let Ak := getElementMatrix triangle
        (List.finRange 3).foldl
          (fun triplets j =>
            (List.finRange 3).foldl
              (fun triplets k => triplets ++ [⟨element j, element k, Ak j k⟩])
              triplets)
          triplets)
      []
  let A : SparseMatrix K := SparseMatrix.zero N N
  (A.setFromTriplets triplets).makeCompressed

end SimpleLinearFiniteElements

/-! ## WaveABC2D -/

namespace lf.assemble

open Eigen

/-- A matrix in triplet format (`lf::assemble::COOMatrix<double>`): its dimensions and the
triplets added so far. -/
structure COOMatrix (K : Type) where
  rows : Nat
  cols : Nat
  triplets : List (Triplet K)

variable {K : Type} [LinearOrderedField K]

/-- The constructor `COOMatrix(rows, cols)`: no triplets yet. -/
def COOMatrix.init (rows cols : Nat) : COOMatrix K :=
  { rows := rows, cols := cols, triplets := [] }

/-- The call `AddToEntry(i, j, increment)` appends the triplet `(i, j, increment)`. -/
def COOMatrix.AddToEntry (m : COOMatrix K) (i j : Nat) (increment : K) : COOMatrix K :=
  { m with triplets := m.triplets ++ [⟨i, j, increment⟩] }

/-- The call `makeSparse()` builds the sparse matrix of the same dimensions from the
triplets. -/
def COOMatrix.makeSparse (m : COOMatrix K) : SparseMatrix K :=
  (SparseMatrix.zero m.rows m.cols).setFromTriplets m.triplets

end lf.assemble

namespace WaveABC2D

open Eigen lf.assemble

/-- The data members of `WaveABC2DTimestepper`; `FeSpace` stands for the finite element
space the timestepper keeps a pointer to. -/
structure WaveABC2DTimestepper (FeSpace K : Type) where
  T_ : K
  N_ : K
  step_size_ : K
  fe_space_p_ : FeSpace
  N_dofs_ : Nat
  R_ : SparseMatrix K
  solver_ : SparseLU K

variable {FeSpace K : Type} [LinearOrderedField K]

/-- The local `L_COO` of the constructor after its four insertion loops: `M`, then
`0.5 * step_size_ * B`, then `0.5 * step_size_ * A` shifted by `N_dofs_` columns, then for
each `i` the entries `-0.5 * step_size_` at `(i + N_dofs_, i)` and `1.0` at
`(i + N_dofs_, i + N_dofs_)`. -/
def WaveABC2DTimestepper.L_COO (A_COO M_COO B_COO : COOMatrix K) (step_size_ : K) :
    COOMatrix K :=
  let N_dofs_ := A_COO.cols
  let L_COO : COOMatrix K := COOMatrix.init (2 * N_dofs_) (2 * N_dofs_)
  let A_triplets_vec := A_COO.triplets
  let M_triplets_vec := M_COO.triplets
  let B_triplets_vec := B_COO.triplets
  let L_COO := M_triplets_vec.foldl
    (fun L_COO triplet => L_COO.AddToEntry triplet.row triplet.col triplet.value) L_COO
  let L_COO := B_triplets_vec.foldl
    (fun L_COO triplet =>
      L_COO.AddToEntry triplet.row triplet.col (1 / 2 * step_size_ * triplet.value)) L_COO
  let L_COO := A_triplets_vec.foldl
    (fun L_COO triplet =>
      L_COO.AddToEntry triplet.row (triplet.col + N_dofs_)
        (1 / 2 * step_size_ * triplet.value)) L_COO
  (List.range N_dofs_).foldl
    (fun L_COO i =>
      (L_COO.AddToEntry (i + N_dofs_) i (-(1 / 2) * step_size_)).AddToEntry
        (i + N_dofs_) (i + N_dofs_) 1)
    L_COO

/-- The local `R_COO` of the constructor after its four insertion loops: as `L_COO`, with
the opposite sign on the three terms that carry `0.5 * step_size_`. -/
def WaveABC2DTimestepper.R_COO (A_COO M_COO B_COO : COOMatrix K) (step_size_ : K) :
    COOMatrix K :=
  let N_dofs_ := A_COO.cols
  let R_COO : COOMatrix K := COOMatrix.init (2 * N_dofs_) (2 * N_dofs_)
  let A_triplets_vec := A_COO.triplets
  let M_triplets_vec := M_COO.triplets
  let B_triplets_vec := B_COO.triplets
  let R_COO := M_triplets_vec.foldl
    (fun R_COO triplet => R_COO.AddToEntry triplet.row triplet.col triplet.value) R_COO
  let R_COO := B_triplets_vec.foldl
    (fun R_COO triplet =>
      R_COO.AddToEntry triplet.row triplet.col (-(1 / 2) * step_size_ * triplet.value)) R_COO
  let R_COO := A_triplets_vec.foldl
    (fun R_COO triplet =>
      R_COO.AddToEntry triplet.row (triplet.col + N_dofs_)
        (-(1 / 2) * step_size_ * triplet.value)) R_COO
  (List.range N_dofs_).foldl
    (fun R_COO i =>
      (R_COO.AddToEntry (i + N_dofs_) i (1 / 2 * step_size_)).AddToEntry
        (i + N_dofs_) (i + N_dofs_) 1)
    R_COO

/-- The local `A_COO` of the constructor: the stiffness matrix,
`computeGalerkinMat(fe_space_p, one_mf, zero_mf, zero_mf)`. -/
def WaveABC2DTimestepper.A_COO
    (computeGalerkinMat :
      FeSpace → ((Fin 2 → K) → K) → ((Fin 2 → K) → K) → ((Fin 2 → K) → K) → COOMatrix K)
    (fe_space_p : FeSpace) : COOMatrix K :=
  computeGalerkinMat fe_space_p (fun _ => 1) (fun _ => 0) (fun _ => 0)

/-- The local `M_COO` of the constructor: the mass matrix,
`computeGalerkinMat(fe_space_p, zero_mf, rho_mf, zero_mf)`. -/
def WaveABC2DTimestepper.M_COO
    (computeGalerkinMat :
      FeSpace → ((Fin 2 → K) → K) → ((Fin 2 → K) → K) → ((Fin 2 → K) → K) → COOMatrix K)
    (fe_space_p : FeSpace) (rho : (Fin 2 → K) → K) : COOMatrix K :=
  computeGalerkinMat fe_space_p (fun _ => 0) rho (fun _ => 0)

/-- The local `B_COO` of the constructor: the boundary mass matrix,
`computeGalerkinMat(fe_space_p, zero_mf, zero_mf, one_mf)`. -/
def WaveABC2DTimestepper.B_COO
    (computeGalerkinMat :
      FeSpace → ((Fin 2 → K) → K) → ((Fin 2 → K) → K) → ((Fin 2 → K) → K) → COOMatrix K)
    (fe_space_p : FeSpace) : COOMatrix K :=
  computeGalerkinMat fe_space_p (fun _ => 0) (fun _ => 0) (fun _ => 1)

/-- The local `L` of the constructor, the matrix handed to the solver, for the step size
`T / N`. -/
def WaveABC2DTimestepper.L
    (computeGalerkinMat :
      FeSpace → ((Fin 2 → K) → K) → ((Fin 2 → K) → K) → ((Fin 2 → K) → K) → COOMatrix K)
    (fe_space_p : FeSpace) (rho : (Fin 2 → K) → K) (N : Nat) (T : K) : SparseMatrix K :=
  (WaveABC2DTimestepper.L_COO (WaveABC2DTimestepper.A_COO computeGalerkinMat fe_space_p)
    (WaveABC2DTimestepper.M_COO computeGalerkinMat fe_space_p rho)
    (WaveABC2DTimestepper.B_COO computeGalerkinMat fe_space_p) (T / (N : K))).makeSparse

/-- The constructor of `WaveABC2DTimestepper` (the `SOLUTION` branch). The Galerkin matrices
come from `computeGalerkinMat`, the factorisation from the sparse LU solver `compute`; both
rest on libraries and are parameters here. The messages on `std::cout` are left out. -/
def WaveABC2DTimestepper.WaveABC2DTimestepper
    (computeGalerkinMat :
      FeSpace → ((Fin 2 → K) → K) → ((Fin 2 → K) → K) → ((Fin 2 → K) → K) → COOMatrix K)
    (compute : SparseMatrix K → SparseLU K)
    (fe_space_p : FeSpace) (rho : (Fin 2 → K) → K) (N : Nat) (T : K) :
    Except String (WaveABC2DTimestepper FeSpace K) :=
  let step_size_ : K := T / (N : K)
  let A_COO := WaveABC2DTimestepper.A_COO computeGalerkinMat fe_space_p
  let M_COO := WaveABC2DTimestepper.M_COO computeGalerkinMat fe_space_p rho
  let B_COO := WaveABC2DTimestepper.B_COO computeGalerkinMat fe_space_p
  let N_dofs_ := A_COO.cols
  let L := WaveABC2DTimestepper.L computeGalerkinMat fe_space_p rho N T
  let solver_ := compute L
  if solver_.info ≠ ComputationInfo.Success then
    Except.error "Could not decompose the matrix!"
  else
    let R_ := (WaveABC2DTimestepper.R_COO A_COO M_COO B_COO step_size_).makeSparse
    Except.ok
      { T_ := T, N_ := (N : K), step_size_ := step_size_, fe_space_p_ := fe_space_p,
        N_dofs_ := N_dofs_, R_ := R_, solver_ := solver_ }

/-- The loop `for (int i = 0; i < N_; i++)` of `solveWaveABC2D`, entered with the counter
`i` and the state `cur_step_vec`: each pass replaces the state by
`solver_.solve(R_ * cur_step_vec)`. The counter is compared with the `double` member `N_`.
`fuel` bounds the number of passes; `none` means that it ran out. The writes of the
progress bar are left out. -/
def WaveABC2DTimestepper.timesteps (ts : WaveABC2D.WaveABC2DTimestepper FeSpace K) :
    Nat → Nat → VectorXd K → Option (VectorXd K)
  | 0, i, cur_step_vec => if (i : K) < ts.N_ then none else some cur_step_vec
  | fuel + 1, i, cur_step_vec =>
    if (i : K) < ts.N_ then
      let next_step_vec := ts.solver_.solve (ts.R_.mulVec cur_step_vec)
      WaveABC2DTimestepper.timesteps ts fuel (i + 1) next_step_vec
    else some cur_step_vec

/-- The member function `solveWaveABC2D` (the `SOLUTION` branch). `NodalProjection` belongs
to the finite element library and is a parameter; `uninitialised` is what the memory of
`cur_step_vec` holds before the two block assignments. The result comes with the object
after the call. The messages on `std::cout` are left out. -/
def WaveABC2DTimestepper.solveWaveABC2D
    (NodalProjection : FeSpace → ((Fin 2 → K) → K) → VectorXd K)
    (ts : WaveABC2D.WaveABC2DTimestepper FeSpace K) (mu0 nu0 : (Fin 2 → K) → K)
    (uninitialised : Nat → K) (fuel : Nat) :
    Option (VectorXd K × WaveABC2D.WaveABC2DTimestepper FeSpace K) :=
  let nu0_nodal := NodalProjection ts.fe_space_p_ nu0
  let mu0_nodal := NodalProjection ts.fe_space_p_ mu0
  let cur_step_vec : VectorXd K := VectorXd.alloc (2 * ts.N_dofs_) uninitialised
  let cur_step_vec := cur_step_vec.setHead ts.N_dofs_ nu0_nodal
  let cur_step_vec := cur_step_vec.setTail ts.N_dofs_ mu0_nodal
  match WaveABC2DTimestepper.timesteps ts fuel 0 cur_step_vec with
  | none => none
  | some cur_step_vec =>
    let discrete_solution := cur_step_vec.tail ts.N_dofs_
    some (discrete_solution, ts)

/-- The position in a `2n x 2n` matrix of an index of the 2x2 block form: the first block
holds the indices `0 .. n-1`, the second block the indices `n .. 2n-1`. -/
def blockIndex (n : Nat) : Fin n ⊕ Fin n → Nat
  | Sum.inl i => i
  | Sum.inr i => i + n

/-- The leading `n x n` entries of a sparse matrix as a matrix. -/
def toMatrix (n : Nat) (A : SparseMatrix K) : Matrix (Fin n) (Fin n) K :=
  fun i j => A.coeff i j

end WaveABC2D

/-! ## StableEvaluationAtAPoint -/

namespace StableEvaluationAtAPoint

open Eigen

/-- The arithmetic of `double` and the part of `<cmath>` the routines call. `round` is the
rounding every arithmetic operation applies to its exact result (the identity in exact
arithmetic, `roundToDouble` for IEEE 754 binary64); `M_PI`, `log` and `sqrt` are the
constant `M_PI` and the library functions `std::log` and `std::sqrt`. They are
parameters of the model. -/
structure CMath (K : Type) where
  M_PI : K
  log : K → K
  sqrt : K → K
  round : K → K

/-- The `FundamentalSolution` object: it stores its source point `x_`. -/
structure FundamentalSolution (K : Type) where
  x_ : Fin 2 → K

variable {K : Type} [LinearOrderedField K]

/-- The difference `a - b` of two 2-vectors: each coefficient is the rounded difference. -/
def vsub (m : CMath K) (a b : Fin 2 → K) : Fin 2 → K :=
  fun i => m.round (a i - b i)

/-- The value `v.squaredNorm()` of a 2-vector: the sum of the squares of its
coefficients, each operation rounded. -/
def squaredNorm (m : CMath K) (v : Fin 2 → K) : K :=
  m.round (m.round (v 0 * v 0) + m.round (v 1 * v 1))

/-- The value `v.norm()` of a 2-vector: the square root of `squaredNorm()`. -/
def norm (m : CMath K) (v : Fin 2 → K) : K :=
  m.sqrt (squaredNorm m v)

/-- The quotient `a / b` of two doubles: `none` stands for the infinity or NaN a division
by zero gives, otherwise the rounded quotient. -/
def fdiv (m : CMath K) (a b : K) : Option K :=
  if b = 0 then none else some (m.round (a / b))

/-- The call `std::log(a)` on a norm `a`: `none` stands for the infinity the logarithm of
zero gives. -/
def flog (m : CMath K) (a : K) : Option K :=
  if a = 0 then none else some (m.log a)

/-- The comparison `a != b` on 2-vectors: true when some coefficient differs. -/
def vectorNe (a b : Fin 2 → K) : Bool :=
  decide (a 0 ≠ b 0) || decide (a 1 ≠ b 1)

/-- Modelled from the spec: `LF_ASSERT_MSG` is the assertion check of the finite element
library, not among the sources; a failed check ends the evaluation with its message. -/
def LF_ASSERT_MSG (cond : Bool) (msg : String) : Except String Unit :=
  if cond then Except.ok () else Except.error msg

/-- The method `FundamentalSolution::operator()`:
`-1.0 / (2.0 * M_PI) * std::log((x_ - y).norm())`. The result `none` is a value that is
not finite. -/
def FundamentalSolution.call (m : CMath K) (G : FundamentalSolution K) (y : Fin 2 → K) :
    Except String (Option K) := do
  LF_ASSERT_MSG (vectorNe G.x_ y) "G not defined for these coordinates!"
  pure (do
    let c ← fdiv m (-1) (m.round (2 * m.M_PI))
    let l ← flog m (norm m (vsub m G.x_ y))
    pure (m.round (c * l)))

/-- The method `FundamentalSolution::grad`:
`(x_ - y) / (2.0 * M_PI * (x_ - y).squaredNorm())`, the division taken coefficient by
coefficient. A coefficient `none` is a value that is not finite. -/
def FundamentalSolution.grad (m : CMath K) (G : FundamentalSolution K) (y : Fin 2 → K) :
    Except String (Fin 2 → Option K) := do
  LF_ASSERT_MSG (vectorNe G.x_ y) "G not defined for these coordinates!"
  pure (fun i =>
    fdiv m (vsub m G.x_ y i)
      (m.round (m.round (2 * m.M_PI) * squaredNorm m (vsub m G.x_ y))))

/-- The function `StablePointEvaluation` (the `SOLUTION` branch). `Jstar` integrates over
the mesh with the quadrature of the finite element library and may end in a failed
assertion of `FundamentalSolution`; it is a parameter here. `cerr` holds the lines written
to `std::cerr` so far; the result comes with the lines written after the call. The
constants `0.5` and `0.25` are the fractions `1 / 2` and `1 / 4`. -/
def StablePointEvaluation {FeSpace : Type} (m : CMath K)
    (Jstar : FeSpace → VectorXd K → (Fin 2 → K) → Except String K)
    (fe_space : FeSpace) (uFE : VectorXd K) (x : Fin 2 → K) (cerr : List String) :
    Except String (K × List String) :=
  let res : K := 0
  let center : Fin 2 → K := ![1 / 2, 1 / 2]
  if norm m (vsub m x center) ≤ 1 / 4 then do
    let res ← Jstar fe_space uFE x
    pure (res, cerr)
  else
    pure (res, cerr ++ ["The point does not fulfill the assumptions"])

/-! ### IEEE 754 binary64 -/

/-- The nearest integer to `t`, ties to the even one. -/
def roundHalfEven (t : ℚ) : ℤ :=
  if t - ⌊t⌋ < 1 / 2 then ⌊t⌋
  else if 1 / 2 < t - ⌊t⌋ then ⌊t⌋ + 1
  else if ⌊t⌋ % 2 = 0 then ⌊t⌋
  else ⌊t⌋ + 1

/-- The exponent of the unit in the last place of the doubles around `q`: with
`2^e <= |q| < 2^(e+1)` it is `e - 52`, and `-1074` in the subnormal range `e < -1022`. -/
def ulpExponent (q : ℚ) : ℤ :=
  max (Int.log 2 |q|) (-1022) - 52

/-- The double nearest to the rational `q` (round to nearest, ties to even, with gradual
underflow): `q` is rounded to a multiple of its unit in the last place. Overflow to
infinity is not modelled. -/
def roundToDouble (q : ℚ) : ℚ :=
  (roundHalfEven (q / 2 ^ ulpExponent q) : ℚ) * 2 ^ ulpExponent q

/-- The arithmetic of binary64 with the value of `M_PI` in `<cmath>`,
`3.141592653589793115997963...`; the library functions `log` and `sqrt` are left open. -/
def binary64 (log sqrt : ℚ → ℚ) : CMath ℚ :=
  { M_PI := 884279719003555 / 281474976710656
    log := log
    sqrt := sqrt
    round := roundToDouble }

end StableEvaluationAtAPoint

/-! ## Concrete inputs -/

namespace SimpleLinearFiniteElements

open Eigen

/-- The reference triangle with the vertices `(0, 0)`, `(1, 0)`, `(0, 1)`. -/
def referenceTriangle : Matrix (Fin 2) (Fin 3) ℚ :=
  !![0, 1, 0; 0, 0, 1]

/-- The unit square with the vertices `(0, 0)`, `(1, 0)`, `(1, 1)`, `(0, 1)`, cut into the
triangles `(0, 1, 2)` and `(0, 2, 3)`. -/
def squareMesh : TriaMesh2D ℚ :=
  { vertices :=
      { rows := 4
        coeff := fun v => match v with
          | 0 => ![0, 0]
          | 1 => ![1, 0]
          | 2 => ![1, 1]
          | _ => ![0, 1] }
    elements :=
      { rows := 2
        coeff := fun i => match i with
          | 0 => ![0, 1, 2]
          | _ => ![0, 2, 3] } }

end SimpleLinearFiniteElements

namespace WaveABC2D

open Eigen lf.assemble

/-- A Galerkin matrix routine on two degrees of freedom; its triplet list holds the
position `(0, 0)` twice. -/
def sampleGalerkinMat (_fe_space_p : Unit) (alpha gamma beta : (Fin 2 → ℚ) → ℚ) :
    COOMatrix ℚ :=
  { rows := 2
    cols := 2
    triplets :=
      [⟨0, 0, alpha 0 + gamma 0⟩, ⟨0, 1, beta 0⟩, ⟨1, 1, alpha 0 + gamma 0 + beta 0⟩,
        ⟨0, 0, gamma 0⟩] }

/-- A Galerkin matrix routine on one degree of freedom. -/
def lineGalerkinMat (_fe_space_p : Unit) (alpha gamma beta : (Fin 2 → ℚ) → ℚ) :
    COOMatrix ℚ :=
  { rows := 1, cols := 1, triplets := [⟨0, 0, alpha 0 + gamma 0 + beta 0⟩] }

/-- A direct solver for 2x2 systems by the rule of Cramer; it reports a numerical issue
for a singular matrix. -/
def cramerCompute (L : SparseMatrix ℚ) : SparseLU ℚ :=
  { info :=
      if L.coeff 0 0 * L.coeff 1 1 - L.coeff 0 1 * L.coeff 1 0 = 0 then
        ComputationInfo.NumericalIssue
      else ComputationInfo.Success
    solve := fun b =>
      { size := 2
        coeff := fun i => match i with
          | 0 => (L.coeff 1 1 * b.coeff 0 - L.coeff 0 1 * b.coeff 1) /
              (L.coeff 0 0 * L.coeff 1 1 - L.coeff 0 1 * L.coeff 1 0)
          | 1 => (L.coeff 0 0 * b.coeff 1 - L.coeff 1 0 * b.coeff 0) /
              (L.coeff 0 0 * L.coeff 1 1 - L.coeff 0 1 * L.coeff 1 0)
          | _ => 0 } }

/-- A nodal projection onto one degree of freedom sitting at the origin. -/
def originProjection (_fe_space : Unit) (f : (Fin 2 → ℚ) → ℚ) : VectorXd ℚ :=
  { size := 1, coeff := fun _ => f 0 }

/-- A solver that reports success on every matrix. -/
def sampleCompute (_L : SparseMatrix ℚ) : SparseLU ℚ :=
  { info := ComputationInfo.Success, solve := fun b => b }

/-- A solver that reports a numerical issue on every matrix. -/
def failingCompute (_L : SparseMatrix ℚ) : SparseLU ℚ :=
  { info := ComputationInfo.NumericalIssue, solve := fun b => b }

end WaveABC2D

/-! ## Lemmas on loops that accumulate a sum -/

section Preserve

/-- A loop whose body leaves the observed quantity `φ` alone leaves it alone. -/
theorem foldl_preserve {α β γ : Type} (φ : β → γ) (step : β → α → β)
    (h : ∀ acc a, φ (step acc a) = φ acc) (l : List α) (acc : β) :
    φ (l.foldl step acc) = φ acc := by
  induction l generalizing acc with
  | nil => rfl
  | cons a l ih => simp [ih, h]

end Preserve

section Loops

open Eigen

variable {K : Type} [LinearOrderedField K]

theorem Eigen.tripletSum_nil (r c : Nat) : tripletSum ([] : List (Triplet K)) r c = 0 := by
  simp [tripletSum]

theorem Eigen.tripletSum_append (ts us : List (Triplet K)) (r c : Nat) :
    tripletSum (ts ++ us) r c = tripletSum ts r c + tripletSum us r c := by
  simp [tripletSum]

theorem Eigen.tripletSum_push (ts : List (Triplet K)) (t : Triplet K) (r c : Nat) :
    tripletSum (ts ++ [t]) r c
      = tripletSum ts r c + (if t.row = r ∧ t.col = c then t.value else 0) := by
  rw [Eigen.tripletSum_append]
  by_cases h : t.row = r ∧ t.col = c <;> simp [tripletSum, List.filter, h]

/-- A loop whose body adds `g a` to the observed quantity `φ` adds up `g` over the list. -/
theorem foldl_accumulate {α β : Type} (φ : β → K) (step : β → α → β) (g : α → K)
    (h : ∀ acc a, φ (step acc a) = φ acc + g a) (l : List α) (acc : β) :
    φ (l.foldl step acc) = φ acc + (l.map g).sum := by
  induction l generalizing acc with
  | nil => simp
  | cons a l ih => simp [ih, h, add_assoc]

theorem sum_map_range (g : Nat → K) (n : Nat) :
    ((List.range n).map g).sum = ∑ i in Finset.range n, g i := by
  induction n with
  | zero => simp
  | succ n ih => simp [List.range_succ, Finset.sum_range_succ, ih]

theorem Eigen.VectorXd.coeff_addTo (phi : VectorXd K) (idx : Nat) (x : K) (v : Nat) :
    (phi.addTo idx x).coeff v = phi.coeff v + (if idx = v then x else 0) := by
  by_cases h : idx = v
  · subst h; simp [VectorXd.addTo]
  · simp [VectorXd.addTo, h, Function.update_noteq (Ne.symm h)]

theorem Eigen.tripletSum_eq_sum_map (ts : List (Triplet K)) (r c : Nat) :
    tripletSum ts r c
      = (ts.map (fun t => if t.row = r ∧ t.col = c then t.value else 0)).sum := by
  induction ts with
  | nil => simp [tripletSum]
  | cons t ts ih =>
    have h := Eigen.tripletSum_append [t] ts r c
    have h1 := Eigen.tripletSum_push [] t r c
    simp only [List.nil_append, Eigen.tripletSum_nil, zero_add] at h1
    simp only [List.singleton_append] at h
    rw [h, h1, ih]
    simp

theorem lf.assemble.COOMatrix.tripletSum_AddToEntry (m : lf.assemble.COOMatrix K)
    (i j : Nat) (v : K) (r c : Nat) :
    tripletSum (m.AddToEntry i j v).triplets r c
      = tripletSum m.triplets r c + (if i = r ∧ j = c then v else 0) :=
  Eigen.tripletSum_push m.triplets _ r c

/-- A loop that adds one entry per element of a list. -/
theorem lf.assemble.COOMatrix.tripletSum_foldl_AddToEntry {α : Type} (l : List α)
    (row col : α → Nat) (val : α → K) (m : lf.assemble.COOMatrix K) (r c : Nat) :
    tripletSum (l.foldl (fun acc a => acc.AddToEntry (row a) (col a) (val a)) m).triplets r c
      = tripletSum m.triplets r c
        + (l.map (fun a => if row a = r ∧ col a = c then val a else 0)).sum :=
  foldl_accumulate (fun m : lf.assemble.COOMatrix K => tripletSum m.triplets r c)
    (fun acc a => acc.AddToEntry (row a) (col a) (val a))
    (fun a => if row a = r ∧ col a = c then val a else 0)
    (fun acc _ => lf.assemble.COOMatrix.tripletSum_AddToEntry acc _ _ _ r c) l m

/-- A loop that adds two entries per element of a list. -/
theorem lf.assemble.COOMatrix.tripletSum_foldl_AddToEntry_two {α : Type} (l : List α)
    (row col row2 col2 : α → Nat) (val val2 : α → K) (m : lf.assemble.COOMatrix K)
    (r c : Nat) :
    tripletSum (l.foldl (fun acc a =>
        (acc.AddToEntry (row a) (col a) (val a)).AddToEntry (row2 a) (col2 a) (val2 a))
        m).triplets r c
      = tripletSum m.triplets r c
        + (l.map (fun a => (if row a = r ∧ col a = c then val a else 0)
            + (if row2 a = r ∧ col2 a = c then val2 a else 0))).sum :=
  foldl_accumulate (fun m : lf.assemble.COOMatrix K => tripletSum m.triplets r c)
    (fun acc a =>
      (acc.AddToEntry (row a) (col a) (val a)).AddToEntry (row2 a) (col2 a) (val2 a))
    (fun a => (if row a = r ∧ col a = c then val a else 0)
            + (if row2 a = r ∧ col2 a = c then val2 a else 0))
    (fun acc _ => by
      simp only [lf.assemble.COOMatrix.tripletSum_AddToEntry, add_assoc]) l m

theorem sum_map_eq_zero {α : Type} (l : List α) (g : α → K) (h : ∀ a ∈ l, g a = 0) :
    (l.map g).sum = 0 := by
  induction l with
  | nil => simp
  | cons a l ih =>
    simp only [List.map_cons, List.sum_cons]
    rw [h a (List.mem_cons_self a l), ih (fun b hb => h b (List.mem_cons_of_mem a hb)),
      add_zero]

theorem sum_map_congr {α : Type} (l : List α) (f g : α → K) (h : ∀ a ∈ l, f a = g a) :
    (l.map f).sum = (l.map g).sum := by
  induction l with
  | nil => simp
  | cons a l ih =>
    simp only [List.map_cons, List.sum_cons]
    rw [h a (List.mem_cons_self a l), ih (fun b hb => h b (List.mem_cons_of_mem a hb))]

theorem sum_map_mul_const {α : Type} (l : List α) (g : α → K) (k : K) :
    (l.map (fun a => k * g a)).sum = k * (l.map g).sum := by
  induction l with
  | nil => simp
  | cons a l ih => simp only [List.map_cons, List.sum_cons, ih, mul_add]

theorem sum_scaled_indicator {α : Type} (l : List α) (P : α → Prop) [DecidablePred P]
    (k : K) (v : α → K) :
    (l.map (fun a => if P a then k * v a else 0)).sum
      = k * (l.map (fun a => if P a then v a else 0)).sum := by
  rw [← sum_map_mul_const]
  refine sum_map_congr l _ _ (fun a _ => ?_)
  by_cases h : P a <;> simp [h]

/-- Over `0 .. n-1` an indicator of the single index `i < n` picks its value. -/
theorem sum_range_indicator (n i : Nat) (hi : i < n) (x : K) :
    ((List.range n).map (fun k => if k = i then x else 0)).sum = x := by
  rw [sum_map_range, Finset.sum_eq_single i]
  · simp
  · intro b _ hb; simp [hb]
  · intro h; exact absurd (Finset.mem_range.mpr hi) h

theorem sum_map_finRange_three (g : Fin 3 → K) :
    ((List.finRange 3).map g).sum = ∑ j : Fin 3, g j := by
  simp [List.finRange, Fin.sum_univ_three, add_assoc]

end Loops

section Dimensions

variable {K : Type}

theorem lf.assemble.COOMatrix.dims_foldl_AddToEntry {α : Type} (l : List α)
    (row col : α → Nat) (val : α → K) (m : lf.assemble.COOMatrix K) :
    (l.foldl (fun acc a => acc.AddToEntry (row a) (col a) (val a)) m).rows = m.rows ∧
    (l.foldl (fun acc a => acc.AddToEntry (row a) (col a) (val a)) m).cols = m.cols :=
  ⟨foldl_preserve (fun m : lf.assemble.COOMatrix K => m.rows)
      (fun acc a => acc.AddToEntry (row a) (col a) (val a)) (fun _ _ => rfl) l m,
    foldl_preserve (fun m : lf.assemble.COOMatrix K => m.cols)
      (fun acc a => acc.AddToEntry (row a) (col a) (val a)) (fun _ _ => rfl) l m⟩

theorem lf.assemble.COOMatrix.dims_foldl_AddToEntry_two {α : Type} (l : List α)
    (row col row2 col2 : α → Nat) (val val2 : α → K) (m : lf.assemble.COOMatrix K) :
    (l.foldl (fun acc a =>
        (acc.AddToEntry (row a) (col a) (val a)).AddToEntry (row2 a) (col2 a) (val2 a))
        m).rows = m.rows ∧
    (l.foldl (fun acc a =>
        (acc.AddToEntry (row a) (col a) (val a)).AddToEntry (row2 a) (col2 a) (val2 a))
        m).cols = m.cols :=
  ⟨foldl_preserve (fun m : lf.assemble.COOMatrix K => m.rows)
      (fun acc a =>
        (acc.AddToEntry (row a) (col a) (val a)).AddToEntry (row2 a) (col2 a) (val2 a))
      (fun _ _ => rfl) l m,
    foldl_preserve (fun m : lf.assemble.COOMatrix K => m.cols)
      (fun acc a =>
        (acc.AddToEntry (row a) (col a) (val a)).AddToEntry (row2 a) (col2 a) (val2 a))
      (fun _ _ => rfl) l m⟩

/-- The start vector of `solveWaveABC2D`: the block of `nu0` on top of the block of `mu0`. -/
theorem Eigen.VectorXd.start_vector (n : Nat) (content : Nat → K) (nu0_nodal mu0_nodal : Eigen.VectorXd K) :
    (((Eigen.VectorXd.alloc (2 * n) content).setHead n nu0_nodal).setTail n mu0_nodal).size
      = 2 * n ∧
    ∀ i, i < n →
      (((Eigen.VectorXd.alloc (2 * n) content).setHead n nu0_nodal).setTail n mu0_nodal).coeff i
        = nu0_nodal.coeff i ∧
      (((Eigen.VectorXd.alloc (2 * n) content).setHead n nu0_nodal).setTail n mu0_nodal).coeff
          (n + i) = mu0_nodal.coeff i := by
  refine ⟨rfl, fun i hi => ⟨?_, ?_⟩⟩
  · simp only [Eigen.VectorXd.setTail, Eigen.VectorXd.setHead, Eigen.VectorXd.alloc]
    rw [if_neg (by omega), if_pos hi]
  · simp only [Eigen.VectorXd.setTail, Eigen.VectorXd.setHead, Eigen.VectorXd.alloc]
    rw [if_pos (by omega)]
    congr 1
    omega

end Dimensions

/-! ## SimpleLinearFiniteElements: the assembly routines -/

namespace SimpleLinearFiniteElements

open Eigen

variable {K : Type} [LinearOrderedField K]

/-- C1. `GalerkinAssembly` assembles the Galerkin matrix: on a mesh with `N` vertices whose
triangles have all their vertex indices below `N`, the result is an `N x N` matrix whose
entry `(r, c)` is the sum, over the triangles `i` and the local index pairs `(j, k)` with
`elements(i, j) = r` and `elements(i, k) = c`, of `getElementMatrix(triangle_i)(j, k)`,
where column `j` of `triangle_i` holds the coordinates of vertex `elements(i, j)`; an
entry without such a contribution is zero. -/
theorem GalerkinAssembly_entries (mesh : TriaMesh2D K)
    (getElementMatrix : Matrix (Fin 2) (Fin 3) K → Matrix (Fin 3) (Fin 3) K)
    (_hidx : ∀ i, i < mesh.elements.rows →
      ∀ j, mesh.elements.coeff i j < mesh.vertices.rows) :
    (GalerkinAssembly mesh getElementMatrix).rows = mesh.vertices.rows ∧
    (GalerkinAssembly mesh getElementMatrix).cols = mesh.vertices.rows ∧
    (∀ r c, r < mesh.vertices.rows → c < mesh.vertices.rows →
      (GalerkinAssembly mesh getElementMatrix).coeff r c
        = ∑ i in Finset.range mesh.elements.rows, ∑ j : Fin 3, ∑ k : Fin 3,
            if mesh.elements.coeff i j = r ∧ mesh.elements.coeff i k = c then
              getElementMatrix
                (fun d l => mesh.vertices.coeff (mesh.elements.coeff i l) d) j k
            else 0) ∧
    (∀ r c, r < mesh.vertices.rows → c < mesh.vertices.rows →
      (∀ i, i < mesh.elements.rows → ∀ j k,
        ¬ (mesh.elements.coeff i j = r ∧ mesh.elements.coeff i k = c)) →
      (GalerkinAssembly mesh getElementMatrix).coeff r c = 0) := by
  have key : ∀ r c, (GalerkinAssembly mesh getElementMatrix).coeff r c
        = ∑ i in Finset.range mesh.elements.rows, ∑ j : Fin 3, ∑ k : Fin 3,
            if mesh.elements.coeff i j = r ∧ mesh.elements.coeff i k = c then
              getElementMatrix
                (fun d l => mesh.vertices.coeff (mesh.elements.coeff i l) d) j k
            else 0 := by
    intro r c
    simp only [GalerkinAssembly, SparseMatrix.makeCompressed, SparseMatrix.setFromTriplets]
    rw [foldl_accumulate (fun ts => tripletSum ts r c) _
      (fun i => ∑ j : Fin 3, ∑ k : Fin 3,
            if mesh.elements.coeff i j = r ∧ mesh.elements.coeff i k = c then
              getElementMatrix
                (fun d l => mesh.vertices.coeff (mesh.elements.coeff i l) d) j k
            else 0)]
    · rw [tripletSum_nil, zero_add, sum_map_range]
    · intro acc i
      rw [foldl_accumulate (fun ts => tripletSum ts r c) _
        (fun j => ∑ k : Fin 3,
            if mesh.elements.coeff i j = r ∧ mesh.elements.coeff i k = c then
              getElementMatrix
                (fun d l => mesh.vertices.coeff (mesh.elements.coeff i l) d) j k
            else 0)]
      · rw [sum_map_finRange_three]
      · intro acc j
        rw [foldl_accumulate (fun ts => tripletSum ts r c) _
          (fun k =>
            if mesh.elements.coeff i j = r ∧ mesh.elements.coeff i k = c then
              getElementMatrix
                (fun d l => mesh.vertices.coeff (mesh.elements.coeff i l) d) j k
            else 0)]
        · rw [sum_map_finRange_three]
        · intro acc k
          exact tripletSum_push acc _ r c
  refine ⟨rfl, rfl, fun r c _ _ => key r c, fun r c _ _ hno => ?_⟩
  rw [key]
  refine Finset.sum_eq_zero (fun i hi => ?_)
  refine Finset.sum_eq_zero (fun j _ => ?_)
  refine Finset.sum_eq_zero (fun k _ => ?_)
  rw [if_neg (hno i (Finset.mem_range.mp hi) j k)]

/-- C2. `assemLoad_LFE` assembles the load vector: on a mesh with `N` vertices whose
triangles have all their vertex indices below `N`, the result has length `N` and its
component `v` is the sum, over the triangles `i` and the local indices `j` with
`elements(i, j) = v`, of `getArea(triangle_i) / 3 * f(vertex j of triangle_i)`; the
component of a vertex that belongs to no triangle is zero. -/
theorem assemLoad_LFE_entries (mesh : TriaMesh2D K) (f : (Fin 2 → K) → K)
    (_hidx : ∀ i, i < mesh.elements.rows →
      ∀ j, mesh.elements.coeff i j < mesh.vertices.rows) :
    (assemLoad_LFE mesh f).size = mesh.vertices.rows ∧
    (∀ v, v < mesh.vertices.rows →
      (assemLoad_LFE mesh f).coeff v
        = ∑ i in Finset.range mesh.elements.rows, ∑ j : Fin 3,
            if mesh.elements.coeff i j = v then
              getArea (fun d l => mesh.vertices.coeff (mesh.elements.coeff i l) d) / 3
                * f (fun d => mesh.vertices.coeff (mesh.elements.coeff i j) d)
            else 0) ∧
    (∀ v, v < mesh.vertices.rows →
      (∀ i, i < mesh.elements.rows → ∀ j, mesh.elements.coeff i j ≠ v) →
      (assemLoad_LFE mesh f).coeff v = 0) := by
  have key : ∀ v, (assemLoad_LFE mesh f).coeff v
        = ∑ i in Finset.range mesh.elements.rows, ∑ j : Fin 3,
            if mesh.elements.coeff i j = v then
              getArea (fun d l => mesh.vertices.coeff (mesh.elements.coeff i l) d) / 3
                * f (fun d => mesh.vertices.coeff (mesh.elements.coeff i j) d)
            else 0 := by
    intro v
    simp only [assemLoad_LFE]
    rw [foldl_accumulate (fun phi : VectorXd K => phi.coeff v) _
      (fun i => ∑ j : Fin 3,
            if mesh.elements.coeff i j = v then
              getArea (fun d l => mesh.vertices.coeff (mesh.elements.coeff i l) d) / 3
                * f (fun d => mesh.vertices.coeff (mesh.elements.coeff i j) d)
            else 0)]
    · rw [sum_map_range]; simp [VectorXd.Zero]
    · intro acc i
      rw [foldl_accumulate (fun phi : VectorXd K => phi.coeff v) _
        (fun j =>
            if mesh.elements.coeff i j = v then
              getArea (fun d l => mesh.vertices.coeff (mesh.elements.coeff i l) d) / 3
                * f (fun d => mesh.vertices.coeff (mesh.elements.coeff i j) d)
            else 0)]
      · rw [sum_map_finRange_three]
      · intro acc j
        exact VectorXd.coeff_addTo acc _ _ v
  refine ⟨?_, fun v _ => key v, fun v _ hno => ?_⟩
  · simp only [assemLoad_LFE]
    rw [foldl_preserve (fun phi : VectorXd K => phi.size)]
    · rfl
    · intro acc i
      rw [foldl_preserve (fun phi : VectorXd K => phi.size)]
      intro acc j
      rfl
  · rw [key]
    refine Finset.sum_eq_zero (fun i hi => ?_)
    refine Finset.sum_eq_zero (fun j _ => ?_)
    rw [if_neg (hno i (Finset.mem_range.mp hi) j)]

/-- The nine cofactors, written out. -/
theorem cofactor_values (m : Matrix (Fin 3) (Fin 3) K) :
    cofactor_3x3 m 0 0 = m 1 1 * m 2 2 - m 1 2 * m 2 1 ∧
    cofactor_3x3 m 1 0 = m 2 1 * m 0 2 - m 2 2 * m 0 1 ∧
    cofactor_3x3 m 2 0 = m 0 1 * m 1 2 - m 0 2 * m 1 1 ∧
    cofactor_3x3 m 0 1 = m 1 2 * m 2 0 - m 1 0 * m 2 2 ∧
    cofactor_3x3 m 1 1 = m 2 2 * m 0 0 - m 2 0 * m 0 2 ∧
    cofactor_3x3 m 2 1 = m 0 2 * m 1 0 - m 0 0 * m 1 2 ∧
    cofactor_3x3 m 0 2 = m 1 0 * m 2 1 - m 1 1 * m 2 0 ∧
    cofactor_3x3 m 1 2 = m 2 0 * m 0 1 - m 2 1 * m 0 0 ∧
    cofactor_3x3 m 2 2 = m 0 0 * m 1 1 - m 0 1 * m 1 0 := by
  refine ⟨?_, ?_, ?_, ?_, ?_, ?_, ?_, ?_, ?_⟩ <;> rfl

/-- The cofactor formula is the inverse: for a non-zero determinant, `m.inverse() * m` is
the identity. -/
theorem inverse_mul_self (m : Matrix (Fin 3) (Fin 3) K) (h : determinant m ≠ 0) :
    inverse m * m = 1 := by
  obtain ⟨c00, c10, c20, c01, c11, c21, c02, c12, c22⟩ := cofactor_values m
  have hd : determinant m = (m 1 1 * m 2 2 - m 1 2 * m 2 1) * m 0 0
      + (m 2 1 * m 0 2 - m 2 2 * m 0 1) * m 1 0 + (m 0 1 * m 1 2 - m 0 2 * m 1 1) * m 2 0 := by
    rw [determinant, c00, c10, c20]
  ext i j
  rw [Matrix.mul_apply, Fin.sum_univ_three]
  simp only [inverse]
  rw [hd] at h ⊢
  fin_cases i <;> fin_cases j <;>
    simp only [Fin.zero_eta, Fin.mk_one, Fin.reduceFinMk, c00, c10, c20, c01, c11, c21, c02,
      c12, c22, Matrix.one_apply_eq, ne_eq, not_false_eq_true, Matrix.one_apply_ne,
      Fin.isValue, zero_ne_one, one_ne_zero, Fin.reduceEq] <;>
    field_simp <;> ring

/-- The determinant of the matrix `X` of `gradbarycoordinates` is twice the signed area. -/
theorem determinant_X (triangle : Matrix (Fin 2) (Fin 3) K) :
    determinant (fun i => ![1, triangle 0 i, triangle 1 i] : Matrix (Fin 3) (Fin 3) K)
      = (triangle 0 1 - triangle 0 0) * (triangle 1 2 - triangle 1 1) -
        (triangle 0 2 - triangle 0 1) * (triangle 1 1 - triangle 1 0) := by
  simp [determinant, cofactor_3x3]
  ring

theorem determinant_X_ne_zero (triangle : Matrix (Fin 2) (Fin 3) K)
    (h : getArea triangle ≠ 0) :
    (triangle 0 1 - triangle 0 0) * (triangle 1 2 - triangle 1 1) -
        (triangle 0 2 - triangle 0 1) * (triangle 1 1 - triangle 1 0) ≠ 0 := by
  intro h0
  apply h
  simp [getArea, h0]

/-- The entries of `gradbarycoordinates`, written out. -/
theorem gradbarycoordinates_apply (triangle : Matrix (Fin 2) (Fin 3) K) (i : Fin 3) :
    gradbarycoordinates triangle 0 i
        = (triangle 1 (i + 1) - triangle 1 (i + 2)) /
          ((triangle 0 1 - triangle 0 0) * (triangle 1 2 - triangle 1 1) -
            (triangle 0 2 - triangle 0 1) * (triangle 1 1 - triangle 1 0)) ∧
    gradbarycoordinates triangle 1 i
        = (triangle 0 (i + 2) - triangle 0 (i + 1)) /
          ((triangle 0 1 - triangle 0 0) * (triangle 1 2 - triangle 1 1) -
            (triangle 0 2 - triangle 0 1) * (triangle 1 1 - triangle 1 0)) := by
  simp only [gradbarycoordinates, inverse, determinant_X]
  fin_cases i <;> simp [cofactor_3x3] <;> constructor <;> ring

/-- C7. `gradbarycoordinates` returns the gradients of the barycentric coordinate
functions: for a non-degenerate triangle, column `i` of the result is a vector `g_i` with
`g_i . (v_j - v_k) = delta_ij - delta_ik` for all `i, j, k`; so the affine function
`lambda_i(p) = 1 + g_i . (p - v_i)` takes the value `1` at `v_i` and `0` at the other two
vertices. -/
theorem gradbarycoordinates_spec (triangle : Matrix (Fin 2) (Fin 3) K)
    (h : getArea triangle ≠ 0) :
    (∀ i j k : Fin 3,
      ∑ d : Fin 2, gradbarycoordinates triangle d i * (triangle d j - triangle d k)
        = (if i = j then 1 else 0) - (if i = k then 1 else 0)) ∧
    (∀ i j : Fin 3,
      1 + ∑ d : Fin 2, gradbarycoordinates triangle d i * (triangle d j - triangle d i)
        = if i = j then 1 else 0) := by
  have hdet := determinant_X_ne_zero triangle h
  have key : ∀ i j k : Fin 3,
      ∑ d : Fin 2, gradbarycoordinates triangle d i * (triangle d j - triangle d k)
        = (if i = j then 1 else 0) - (if i = k then 1 else 0) := by
    intro i j k
    rw [Fin.sum_univ_two, (gradbarycoordinates_apply triangle i).1,
      (gradbarycoordinates_apply triangle i).2]
    fin_cases i <;> fin_cases j <;> fin_cases k <;>
      simp <;> field_simp <;> ring
  refine ⟨key, fun i j => ?_⟩
  rw [key i j i]
  simp

/-- C8. `ElementMatrix_Lapl_LFE` computes the element matrix for the Laplacian: for a
non-degenerate triangle, entry `(i, j)` of the result is `area * (g_i . g_j)`, where `g_i`
is column `i` of `gradbarycoordinates(triangle)` and
`area = getArea(triangle) = (1/2) * |det [v_1 - v_0, v_2 - v_0]|`. -/
theorem ElementMatrix_Lapl_LFE_spec (triangle : Matrix (Fin 2) (Fin 3) K)
    (_h : getArea triangle ≠ 0) :
    (∀ i j : Fin 3,
      ElementMatrix_Lapl_LFE triangle i j
        = getArea triangle *
            ∑ d : Fin 2, gradbarycoordinates triangle d i * gradbarycoordinates triangle d j) ∧
    getArea triangle
      = 1 / 2 * |Matrix.det !![triangle 0 1 - triangle 0 0, triangle 0 2 - triangle 0 0;
                                triangle 1 1 - triangle 1 0, triangle 1 2 - triangle 1 0]| := by
  constructor
  · intro i j
    simp only [ElementMatrix_Lapl_LFE, Matrix.mul_apply, Matrix.smul_apply,
      Matrix.transpose_apply, smul_eq_mul, Finset.mul_sum, mul_assoc]
  · rw [Matrix.det_fin_two_of, getArea, abs_mul, abs_of_pos (by norm_num : (0 : K) < 1 / 2)]
    congr 2
    ring

/-- C9. The body of `ElementMatrix_Mass_LFE` never reads `triangle`: whatever the local
`element_matrix` holds, the result is the same for all triangles, so it is not the matrix
with `getArea(triangle)/6` on the diagonal and `getArea(triangle)/12` off the diagonal. -/
theorem ElementMatrix_Mass_LFE_not_mass_matrix (element_matrix : Matrix (Fin 3) (Fin 3) ℚ) :
    (∀ t₁ t₂ : Matrix (Fin 2) (Fin 3) ℚ,
      ElementMatrix_Mass_LFE element_matrix t₁ = ElementMatrix_Mass_LFE element_matrix t₂) ∧
    ¬ (∀ (t : Matrix (Fin 2) (Fin 3) ℚ) (i j : Fin 3),
        ElementMatrix_Mass_LFE element_matrix t i j
          = if i = j then getArea t / 6 else getArea t / 12) := by
  refine ⟨fun _ _ => rfl, fun hall => ?_⟩
  have h₁ := hall !![0, 1, 0; 0, 0, 1] 0 0
  have h₂ := hall !![0, 2, 0; 0, 0, 2] 0 0
  simp only [ElementMatrix_Mass_LFE] at h₁ h₂
  rw [h₁] at h₂
  norm_num [getArea, abs_of_pos] at h₂

/-- C1 on the unit square mesh with the Laplacian element matrix: the mesh is well formed,
the Galerkin matrix has four rows and its entry `(0, 2)` is the sum of the contributions. -/
theorem GalerkinAssembly_entries_witness :
    (∀ i, i < squareMesh.elements.rows →
      ∀ j, squareMesh.elements.coeff i j < squareMesh.vertices.rows) ∧
    (GalerkinAssembly squareMesh ElementMatrix_Lapl_LFE).rows = squareMesh.vertices.rows ∧
    (GalerkinAssembly squareMesh ElementMatrix_Lapl_LFE).coeff 0 2
      = ∑ i in Finset.range squareMesh.elements.rows, ∑ j : Fin 3, ∑ k : Fin 3,
          if squareMesh.elements.coeff i j = 0 ∧ squareMesh.elements.coeff i k = 2 then
            ElementMatrix_Lapl_LFE
              (fun d l => squareMesh.vertices.coeff (squareMesh.elements.coeff i l) d) j k
          else 0 :=
  ⟨by decide,
    (GalerkinAssembly_entries squareMesh ElementMatrix_Lapl_LFE (by decide)).1,
    (GalerkinAssembly_entries squareMesh ElementMatrix_Lapl_LFE (by decide)).2.2.1 0 2
      (by decide) (by decide)⟩

/-- C2 on the unit square mesh with `f(x) = 1 + x_0 + 2 x_1`: the load vector has four
components and component `2` is the sum of the contributions. -/
theorem assemLoad_LFE_entries_witness :
    (∀ i, i < squareMesh.elements.rows →
      ∀ j, squareMesh.elements.coeff i j < squareMesh.vertices.rows) ∧
    (assemLoad_LFE squareMesh (fun x => 1 + x 0 + 2 * x 1)).size = squareMesh.vertices.rows ∧
    (assemLoad_LFE squareMesh (fun x => 1 + x 0 + 2 * x 1)).coeff 2
      = ∑ i in Finset.range squareMesh.elements.rows, ∑ j : Fin 3,
          if squareMesh.elements.coeff i j = 2 then
            getArea (fun d l => squareMesh.vertices.coeff (squareMesh.elements.coeff i l) d) / 3
              * (fun x : Fin 2 → ℚ => 1 + x 0 + 2 * x 1)
                  (fun d => squareMesh.vertices.coeff (squareMesh.elements.coeff i j) d)
          else 0 :=
  ⟨by decide,
    (assemLoad_LFE_entries squareMesh (fun x => 1 + x 0 + 2 * x 1) (by decide)).1,
    (assemLoad_LFE_entries squareMesh (fun x => 1 + x 0 + 2 * x 1) (by decide)).2.1 2
      (by decide)⟩

/-- C7 on the reference triangle: it is not degenerate and `g_1 . (v_1 - v_0) = 1`. -/
theorem gradbarycoordinates_spec_witness :
    getArea referenceTriangle ≠ 0 ∧
    ∑ d : Fin 2, gradbarycoordinates referenceTriangle d 1 *
        (referenceTriangle d 1 - referenceTriangle d 0)
      = (if (1 : Fin 3) = 1 then 1 else 0) - (if (1 : Fin 3) = 0 then 1 else 0) :=
  ⟨by simp [getArea, referenceTriangle, abs_of_pos],
    (gradbarycoordinates_spec referenceTriangle
      (by simp [getArea, referenceTriangle, abs_of_pos])).1 1 1 0⟩

/-- C8 on the reference triangle: entry `(0, 1)` of the element matrix. -/
theorem ElementMatrix_Lapl_LFE_spec_witness :
    getArea referenceTriangle ≠ 0 ∧
    ElementMatrix_Lapl_LFE referenceTriangle 0 1
      = getArea referenceTriangle *
          ∑ d : Fin 2, gradbarycoordinates referenceTriangle d 0 *
            gradbarycoordinates referenceTriangle d 1 :=
  ⟨by simp [getArea, referenceTriangle, abs_of_pos],
    (ElementMatrix_Lapl_LFE_spec referenceTriangle
      (by simp [getArea, referenceTriangle, abs_of_pos])).1 0 1⟩

/-- The area of the reference triangle, evaluated. -/
theorem getArea_referenceTriangle : getArea referenceTriangle = 1 / 2 := by
  simp [getArea, referenceTriangle, abs_of_pos]

/-- The load vector on the unit square mesh, evaluated at vertex `2`: the two triangles
give `1/6 * 4` each. -/
theorem assemLoad_LFE_squareMesh :
    (assemLoad_LFE squareMesh (fun x => 1 + x 0 + 2 * x 1)).coeff 2 = 4 / 3 := by
  simp [assemLoad_LFE, List.range, List.range.loop, List.finRange, VectorXd.addTo,
    VectorXd.Zero, TriaMesh2D.get, squareMesh, getArea, abs_of_pos, Function.update]
  norm_num

/-- The Galerkin matrix on the unit square mesh for the element matrix
`(j, k) ↦ x_j + 2 y_k`, evaluated at `(0, 2)`: the two triangles give `2` each. -/
theorem GalerkinAssembly_squareMesh :
    (GalerkinAssembly squareMesh (fun t j k => t 0 j + 2 * t 1 k)).coeff 0 2 = 4 := by
  simp [GalerkinAssembly, List.range, List.range.loop, List.finRange,
    SparseMatrix.setFromTriplets, SparseMatrix.makeCompressed, tripletSum, squareMesh,
    List.filter]
  norm_num

end SimpleLinearFiniteElements

/-! ## WaveABC2D: the matrices of the timestepper -/

namespace WaveABC2D

open Eigen lf.assemble

variable {FeSpace K : Type} [LinearOrderedField K]

/-- The entries of the evolution matrix as sums over the triplet lists. -/
theorem L_COO_coeff (A_COO M_COO B_COO : COOMatrix K) (tau : K) (r c : Nat) :
    (WaveABC2DTimestepper.L_COO A_COO M_COO B_COO tau).makeSparse.coeff r c
      = (M_COO.triplets.map
            (fun t => if t.row = r ∧ t.col = c then t.value else 0)).sum
        + (B_COO.triplets.map
            (fun t => if t.row = r ∧ t.col = c then 1 / 2 * tau * t.value else 0)).sum
        + (A_COO.triplets.map
            (fun t => if t.row = r ∧ t.col + A_COO.cols = c
              then 1 / 2 * tau * t.value else 0)).sum
        + ((List.range A_COO.cols).map
            (fun i => (if i + A_COO.cols = r ∧ i = c then -(1 / 2) * tau else 0)
              + (if i + A_COO.cols = r ∧ i + A_COO.cols = c then 1 else 0))).sum := by
  simp only [WaveABC2DTimestepper.L_COO, COOMatrix.makeSparse, SparseMatrix.setFromTriplets]
  rw [COOMatrix.tripletSum_foldl_AddToEntry_two (List.range A_COO.cols)
      (fun i => i + A_COO.cols) (fun i => i) (fun i => i + A_COO.cols)
      (fun i => i + A_COO.cols) (fun _ => -(1 / 2) * tau) (fun _ => 1),
    COOMatrix.tripletSum_foldl_AddToEntry A_COO.triplets (fun t => t.row)
      (fun t => t.col + A_COO.cols) (fun t => 1 / 2 * tau * t.value),
    COOMatrix.tripletSum_foldl_AddToEntry B_COO.triplets (fun t => t.row)
      (fun t => t.col) (fun t => 1 / 2 * tau * t.value),
    COOMatrix.tripletSum_foldl_AddToEntry M_COO.triplets (fun t => t.row)
      (fun t => t.col) (fun t => t.value)]
  simp [COOMatrix.init, tripletSum_nil]

theorem L_COO_dims (A_COO M_COO B_COO : COOMatrix K) (tau : K) :
    (WaveABC2DTimestepper.L_COO A_COO M_COO B_COO tau).makeSparse.rows = 2 * A_COO.cols ∧
    (WaveABC2DTimestepper.L_COO A_COO M_COO B_COO tau).makeSparse.cols = 2 * A_COO.cols := by
  simp only [WaveABC2DTimestepper.L_COO, COOMatrix.makeSparse, SparseMatrix.setFromTriplets,
    SparseMatrix.zero]
  constructor
  · rw [(COOMatrix.dims_foldl_AddToEntry_two (List.range A_COO.cols)
        (fun i => i + A_COO.cols) (fun i => i) (fun i => i + A_COO.cols)
        (fun i => i + A_COO.cols) (fun _ => -(1 / 2) * tau) (fun _ => 1) _).1,
      (COOMatrix.dims_foldl_AddToEntry A_COO.triplets (fun t => t.row)
        (fun t => t.col + A_COO.cols) (fun t => 1 / 2 * tau * t.value) _).1,
      (COOMatrix.dims_foldl_AddToEntry B_COO.triplets (fun t => t.row)
        (fun t => t.col) (fun t => 1 / 2 * tau * t.value) _).1,
      (COOMatrix.dims_foldl_AddToEntry M_COO.triplets (fun t => t.row)
        (fun t => t.col) (fun t => t.value) _).1]
    rfl
  · rw [(COOMatrix.dims_foldl_AddToEntry_two (List.range A_COO.cols)
        (fun i => i + A_COO.cols) (fun i => i) (fun i => i + A_COO.cols)
        (fun i => i + A_COO.cols) (fun _ => -(1 / 2) * tau) (fun _ => 1) _).2,
      (COOMatrix.dims_foldl_AddToEntry A_COO.triplets (fun t => t.row)
        (fun t => t.col + A_COO.cols) (fun t => 1 / 2 * tau * t.value) _).2,
      (COOMatrix.dims_foldl_AddToEntry B_COO.triplets (fun t => t.row)
        (fun t => t.col) (fun t => 1 / 2 * tau * t.value) _).2,
      (COOMatrix.dims_foldl_AddToEntry M_COO.triplets (fun t => t.row)
        (fun t => t.col) (fun t => t.value) _).2]
    rfl

/-- The matrix of `L_COO` has the block form, for any three triplet lists in range. -/
theorem L_COO_block (A_COO M_COO B_COO : COOMatrix K) (N : Nat) (T : K)
    (hA : ∀ t ∈ A_COO.triplets, t.row < A_COO.cols ∧ t.col < A_COO.cols)
    (hM : ∀ t ∈ M_COO.triplets, t.row < A_COO.cols ∧ t.col < A_COO.cols)
    (hB : ∀ t ∈ B_COO.triplets, t.row < A_COO.cols ∧ t.col < A_COO.cols) :
    (WaveABC2DTimestepper.L_COO A_COO M_COO B_COO (T / N)).makeSparse.rows
      = 2 * A_COO.cols ∧
    (WaveABC2DTimestepper.L_COO A_COO M_COO B_COO (T / N)).makeSparse.cols
      = 2 * A_COO.cols ∧
    ∀ p q : Fin A_COO.cols ⊕ Fin A_COO.cols,
      (WaveABC2DTimestepper.L_COO A_COO M_COO B_COO (T / N)).makeSparse.coeff
          (blockIndex A_COO.cols p) (blockIndex A_COO.cols q)
        = Matrix.fromBlocks
            (toMatrix A_COO.cols M_COO.makeSparse
              + (1 / 2 * (T / N)) • toMatrix A_COO.cols B_COO.makeSparse)
            ((1 / 2 * (T / N)) • toMatrix A_COO.cols A_COO.makeSparse)
            (-(1 / 2 * (T / N)) • (1 : Matrix (Fin A_COO.cols) (Fin A_COO.cols) K))
            (1 : Matrix (Fin A_COO.cols) (Fin A_COO.cols) K) p q := by
  refine ⟨(L_COO_dims _ _ _ _).1, (L_COO_dims _ _ _ _).2, fun p q => ?_⟩
  rw [L_COO_coeff]
  rcases p with i | i <;> rcases q with j | j
  · simp only [blockIndex, Matrix.fromBlocks_apply₁₁, Matrix.add_apply, Matrix.smul_apply,
      smul_eq_mul, toMatrix, COOMatrix.makeSparse, SparseMatrix.setFromTriplets,
      tripletSum_eq_sum_map]
    rw [sum_scaled_indicator B_COO.triplets (fun t => t.row = (i : Nat) ∧ t.col = (j : Nat))
        (1 / 2 * (T / N)) (fun t => t.value),
      sum_map_eq_zero A_COO.triplets _ (fun t _ => if_neg (by omega)),
      sum_map_eq_zero (List.range A_COO.cols) _ (fun k _ => by
        rw [if_neg (by omega), if_neg (by omega), add_zero])]
    ring
  · simp only [blockIndex, Matrix.fromBlocks_apply₁₂, Matrix.smul_apply,
      smul_eq_mul, toMatrix, COOMatrix.makeSparse, SparseMatrix.setFromTriplets,
      tripletSum_eq_sum_map]
    rw [sum_map_eq_zero M_COO.triplets _ (fun t ht => if_neg (by have := hM t ht; omega)),
      sum_map_eq_zero B_COO.triplets _ (fun t ht => if_neg (by have := hB t ht; omega)),
      sum_map_eq_zero (List.range A_COO.cols) _ (fun k _ => by
        rw [if_neg (by omega), if_neg (by omega), add_zero]),
      sum_map_congr A_COO.triplets _
        (fun t => if t.row = (i : Nat) ∧ t.col = (j : Nat)
          then 1 / 2 * (T / N) * t.value else 0)
        (fun t _ => by
          beta_reduce
          by_cases h : t.row = (i : Nat) ∧ t.col = (j : Nat)
          · rw [if_pos h, if_pos ⟨h.1, by omega⟩]
          · rw [if_neg h, if_neg (fun h2 => h ⟨h2.1, by omega⟩)]),
      sum_scaled_indicator A_COO.triplets (fun t => t.row = (i : Nat) ∧ t.col = (j : Nat))
        (1 / 2 * (T / N)) (fun t => t.value)]
    ring
  · simp only [blockIndex, Matrix.fromBlocks_apply₂₁, Matrix.smul_apply,
      smul_eq_mul, Matrix.one_apply, Fin.ext_iff]
    rw [sum_map_eq_zero M_COO.triplets _ (fun t ht => if_neg (by have := hM t ht; omega)),
      sum_map_eq_zero B_COO.triplets _ (fun t ht => if_neg (by have := hB t ht; omega)),
      sum_map_eq_zero A_COO.triplets _ (fun t ht => if_neg (by have := hA t ht; omega)),
      sum_map_congr (List.range A_COO.cols) _
        (fun k => if k = (i : Nat)
          then (if (i : Nat) = (j : Nat) then -(1 / 2) * (T / N) else 0) else 0)
        (fun k _ => by
          beta_reduce
          rw [if_neg (by omega : ¬ (k + A_COO.cols = i + A_COO.cols ∧ k + A_COO.cols = j)),
            add_zero]
          by_cases h1 : k = (i : Nat)
          · by_cases h2 : (i : Nat) = (j : Nat)
            · rw [if_pos h1, if_pos h2, if_pos ⟨by omega, by omega⟩]
            · rw [if_pos h1, if_neg h2, if_neg (by omega)]
          · rw [if_neg h1, if_neg (by omega)]),
      sum_range_indicator A_COO.cols i i.isLt]
    by_cases h2 : (i : Nat) = (j : Nat)
    · simp [h2]
    · simp [h2]
  · simp only [blockIndex, Matrix.fromBlocks_apply₂₂, Matrix.one_apply, Fin.ext_iff]
    rw [sum_map_eq_zero M_COO.triplets _ (fun t ht => if_neg (by have := hM t ht; omega)),
      sum_map_eq_zero B_COO.triplets _ (fun t ht => if_neg (by have := hB t ht; omega)),
      sum_map_eq_zero A_COO.triplets _ (fun t ht => if_neg (by have := hA t ht; omega)),
      sum_map_congr (List.range A_COO.cols) _
        (fun k => if k = (i : Nat) then (if (i : Nat) = (j : Nat) then 1 else 0) else 0)
        (fun k hk => by
          have hk2 := List.mem_range.mp hk
          beta_reduce
          rw [if_neg (by omega : ¬ (k + A_COO.cols = i + A_COO.cols ∧ k = j + A_COO.cols)),
            zero_add]
          by_cases h1 : k = (i : Nat)
          · by_cases h2 : (i : Nat) = (j : Nat)
            · rw [if_pos h1, if_pos h2, if_pos ⟨by omega, by omega⟩]
            · rw [if_pos h1, if_neg h2, if_neg (by omega)]
          · rw [if_neg h1, if_neg (by omega)]),
      sum_range_indicator A_COO.cols i i.isLt]
    simp

/-- The entries of the right-hand-side matrix as sums over the triplet lists. -/
theorem R_COO_coeff (A_COO M_COO B_COO : COOMatrix K) (tau : K) (r c : Nat) :
    (WaveABC2DTimestepper.R_COO A_COO M_COO B_COO tau).makeSparse.coeff r c
      = (M_COO.triplets.map
            (fun t => if t.row = r ∧ t.col = c then t.value else 0)).sum
        + (B_COO.triplets.map
            (fun t => if t.row = r ∧ t.col = c then -(1 / 2) * tau * t.value else 0)).sum
        + (A_COO.triplets.map
            (fun t => if t.row = r ∧ t.col + A_COO.cols = c
              then -(1 / 2) * tau * t.value else 0)).sum
        + ((List.range A_COO.cols).map
            (fun i => (if i + A_COO.cols = r ∧ i = c then 1 / 2 * tau else 0)
              + (if i + A_COO.cols = r ∧ i + A_COO.cols = c then 1 else 0))).sum := by
  simp only [WaveABC2DTimestepper.R_COO, COOMatrix.makeSparse, SparseMatrix.setFromTriplets]
  rw [COOMatrix.tripletSum_foldl_AddToEntry_two (List.range A_COO.cols)
      (fun i => i + A_COO.cols) (fun i => i) (fun i => i + A_COO.cols)
      (fun i => i + A_COO.cols) (fun _ => 1 / 2 * tau) (fun _ => 1),
    COOMatrix.tripletSum_foldl_AddToEntry A_COO.triplets (fun t => t.row)
      (fun t => t.col + A_COO.cols) (fun t => -(1 / 2) * tau * t.value),
    COOMatrix.tripletSum_foldl_AddToEntry B_COO.triplets (fun t => t.row)
      (fun t => t.col) (fun t => -(1 / 2) * tau * t.value),
    COOMatrix.tripletSum_foldl_AddToEntry M_COO.triplets (fun t => t.row)
      (fun t => t.col) (fun t => t.value)]
  simp [COOMatrix.init, tripletSum_nil]

theorem R_COO_dims (A_COO M_COO B_COO : COOMatrix K) (tau : K) :
    (WaveABC2DTimestepper.R_COO A_COO M_COO B_COO tau).makeSparse.rows = 2 * A_COO.cols ∧
    (WaveABC2DTimestepper.R_COO A_COO M_COO B_COO tau).makeSparse.cols = 2 * A_COO.cols := by
  simp only [WaveABC2DTimestepper.R_COO, COOMatrix.makeSparse, SparseMatrix.setFromTriplets,
    SparseMatrix.zero]
  constructor
  · rw [(COOMatrix.dims_foldl_AddToEntry_two (List.range A_COO.cols)
        (fun i => i + A_COO.cols) (fun i => i) (fun i => i + A_COO.cols)
        (fun i => i + A_COO.cols) (fun _ => 1 / 2 * tau) (fun _ => 1) _).1,
      (COOMatrix.dims_foldl_AddToEntry A_COO.triplets (fun t => t.row)
        (fun t => t.col + A_COO.cols) (fun t => -(1 / 2) * tau * t.value) _).1,
      (COOMatrix.dims_foldl_AddToEntry B_COO.triplets (fun t => t.row)
        (fun t => t.col) (fun t => -(1 / 2) * tau * t.value) _).1,
      (COOMatrix.dims_foldl_AddToEntry M_COO.triplets (fun t => t.row)
        (fun t => t.col) (fun t => t.value) _).1]
    rfl
  · rw [(COOMatrix.dims_foldl_AddToEntry_two (List.range A_COO.cols)
        (fun i => i + A_COO.cols) (fun i => i) (fun i => i + A_COO.cols)
        (fun i => i + A_COO.cols) (fun _ => 1 / 2 * tau) (fun _ => 1) _).2,
      (COOMatrix.dims_foldl_AddToEntry A_COO.triplets (fun t => t.row)
        (fun t => t.col + A_COO.cols) (fun t => -(1 / 2) * tau * t.value) _).2,
      (COOMatrix.dims_foldl_AddToEntry B_COO.triplets (fun t => t.row)
        (fun t => t.col) (fun t => -(1 / 2) * tau * t.value) _).2,
      (COOMatrix.dims_foldl_AddToEntry M_COO.triplets (fun t => t.row)
        (fun t => t.col) (fun t => t.value) _).2]
    rfl

/-- The matrix of `R_COO` has the block form, for any three triplet lists in range. -/
theorem R_COO_block (A_COO M_COO B_COO : COOMatrix K) (N : Nat) (T : K)
    (hA : ∀ t ∈ A_COO.triplets, t.row < A_COO.cols ∧ t.col < A_COO.cols)
    (hM : ∀ t ∈ M_COO.triplets, t.row < A_COO.cols ∧ t.col < A_COO.cols)
    (hB : ∀ t ∈ B_COO.triplets, t.row < A_COO.cols ∧ t.col < A_COO.cols) :
    (WaveABC2DTimestepper.R_COO A_COO M_COO B_COO (T / N)).makeSparse.rows
      = 2 * A_COO.cols ∧
    (WaveABC2DTimestepper.R_COO A_COO M_COO B_COO (T / N)).makeSparse.cols
      = 2 * A_COO.cols ∧
    ∀ p q : Fin A_COO.cols ⊕ Fin A_COO.cols,
      (WaveABC2DTimestepper.R_COO A_COO M_COO B_COO (T / N)).makeSparse.coeff
          (blockIndex A_COO.cols p) (blockIndex A_COO.cols q)
        = Matrix.fromBlocks
            (toMatrix A_COO.cols M_COO.makeSparse
              - (1 / 2 * (T / N)) • toMatrix A_COO.cols B_COO.makeSparse)
            (-(1 / 2 * (T / N)) • toMatrix A_COO.cols A_COO.makeSparse)
            ((1 / 2 * (T / N)) • (1 : Matrix (Fin A_COO.cols) (Fin A_COO.cols) K))
            (1 : Matrix (Fin A_COO.cols) (Fin A_COO.cols) K) p q := by
  refine ⟨(R_COO_dims _ _ _ _).1, (R_COO_dims _ _ _ _).2, fun p q => ?_⟩
  rw [R_COO_coeff]
  rcases p with i | i <;> rcases q with j | j
  · simp only [blockIndex, Matrix.fromBlocks_apply₁₁, Matrix.sub_apply, Matrix.smul_apply,
      smul_eq_mul, toMatrix, COOMatrix.makeSparse, SparseMatrix.setFromTriplets,
      tripletSum_eq_sum_map]
    rw [sum_scaled_indicator B_COO.triplets (fun t => t.row = (i : Nat) ∧ t.col = (j : Nat))
        (-(1 / 2) * (T / N)) (fun t => t.value),
      sum_map_eq_zero A_COO.triplets _ (fun t _ => if_neg (by omega)),
      sum_map_eq_zero (List.range A_COO.cols) _ (fun k _ => by
        rw [if_neg (by omega), if_neg (by omega), add_zero])]
    ring
  · simp only [blockIndex, Matrix.fromBlocks_apply₁₂, Matrix.smul_apply, Matrix.neg_apply,
      smul_eq_mul, toMatrix, COOMatrix.makeSparse, SparseMatrix.setFromTriplets,
      tripletSum_eq_sum_map]
    rw [sum_map_eq_zero M_COO.triplets _ (fun t ht => if_neg (by have := hM t ht; omega)),
      sum_map_eq_zero B_COO.triplets _ (fun t ht => if_neg (by have := hB t ht; omega)),
      sum_map_eq_zero (List.range A_COO.cols) _ (fun k _ => by
        rw [if_neg (by omega), if_neg (by omega), add_zero]),
      sum_map_congr A_COO.triplets _
        (fun t => if t.row = (i : Nat) ∧ t.col = (j : Nat)
          then -(1 / 2) * (T / N) * t.value else 0)
        (fun t _ => by
          beta_reduce
          by_cases h : t.row = (i : Nat) ∧ t.col = (j : Nat)
          · rw [if_pos h, if_pos ⟨h.1, by omega⟩]
          · rw [if_neg h, if_neg (fun h2 => h ⟨h2.1, by omega⟩)]),
      sum_scaled_indicator A_COO.triplets (fun t => t.row = (i : Nat) ∧ t.col = (j : Nat))
        (-(1 / 2) * (T / N)) (fun t => t.value)]
    ring
  · simp only [blockIndex, Matrix.fromBlocks_apply₂₁, Matrix.smul_apply,
      smul_eq_mul, Matrix.one_apply, Fin.ext_iff]
    rw [sum_map_eq_zero M_COO.triplets _ (fun t ht => if_neg (by have := hM t ht; omega)),
      sum_map_eq_zero B_COO.triplets _ (fun t ht => if_neg (by have := hB t ht; omega)),
      sum_map_eq_zero A_COO.triplets _ (fun t ht => if_neg (by have := hA t ht; omega)),
      sum_map_congr (List.range A_COO.cols) _
        (fun k => if k = (i : Nat)
          then (if (i : Nat) = (j : Nat) then 1 / 2 * (T / N) else 0) else 0)
        (fun k _ => by
          beta_reduce
          rw [if_neg (by omega : ¬ (k + A_COO.cols = i + A_COO.cols ∧ k + A_COO.cols = j)),
            add_zero]
          by_cases h1 : k = (i : Nat)
          · by_cases h2 : (i : Nat) = (j : Nat)
            · rw [if_pos h1, if_pos h2, if_pos ⟨by omega, by omega⟩]
            · rw [if_pos h1, if_neg h2, if_neg (by omega)]
          · rw [if_neg h1, if_neg (by omega)]),
      sum_range_indicator A_COO.cols i i.isLt]
    by_cases h2 : (i : Nat) = (j : Nat)
    · simp [h2]
    · simp [h2]
  · simp only [blockIndex, Matrix.fromBlocks_apply₂₂, Matrix.one_apply, Fin.ext_iff]
    rw [sum_map_eq_zero M_COO.triplets _ (fun t ht => if_neg (by have := hM t ht; omega)),
      sum_map_eq_zero B_COO.triplets _ (fun t ht => if_neg (by have := hB t ht; omega)),
      sum_map_eq_zero A_COO.triplets _ (fun t ht => if_neg (by have := hA t ht; omega)),
      sum_map_congr (List.range A_COO.cols) _
        (fun k => if k = (i : Nat) then (if (i : Nat) = (j : Nat) then 1 else 0) else 0)
        (fun k hk => by
          have hk2 := List.mem_range.mp hk
          beta_reduce
          rw [if_neg (by omega : ¬ (k + A_COO.cols = i + A_COO.cols ∧ k = j + A_COO.cols)),
            zero_add]
          by_cases h1 : k = (i : Nat)
          · by_cases h2 : (i : Nat) = (j : Nat)
            · rw [if_pos h1, if_pos h2, if_pos ⟨by omega, by omega⟩]
            · rw [if_pos h1, if_neg h2, if_neg (by omega)]
          · rw [if_neg h1, if_neg (by omega)]),
      sum_range_indicator A_COO.cols i i.isLt]
    simp

/-! ### The timestepping loop -/

/-- The loop compares its counter with `N_`; when `N_` holds the number `N`, entered with
the counter `i <= N` and enough fuel it applies the step `N - i` times. -/
theorem timesteps_eq_iterate (ts : WaveABC2DTimestepper FeSpace K) (N : Nat)
    (hN : ts.N_ = (N : K)) (fuel i : Nat) (cur : VectorXd K) (hi : i ≤ N)
    (hfuel : N - i ≤ fuel) :
    WaveABC2DTimestepper.timesteps ts fuel i cur
      = some ((fun s => ts.solver_.solve (ts.R_.mulVec s))^[N - i] cur) := by
  induction fuel generalizing i cur with
  | zero =>
    have hiN : i = N := by omega
    subst hiN
    simp [WaveABC2DTimestepper.timesteps, hN]
  | succ fuel ih =>
    by_cases hlt : i < N
    · have hc : (i : K) < ts.N_ := by rw [hN]; exact_mod_cast hlt
      have hsub : N - i = (N - (i + 1)) + 1 := by omega
      simp only [WaveABC2DTimestepper.timesteps, hc, if_true]
      rw [ih (i + 1) _ (by omega) (by omega), hsub, Function.iterate_succ_apply]
    · have hiN : i = N := by omega
      subst hiN
      simp [WaveABC2DTimestepper.timesteps, hN]

/-- The members of a timestepper the constructor returns. -/
theorem constructor_members
    (computeGalerkinMat :
      FeSpace → ((Fin 2 → K) → K) → ((Fin 2 → K) → K) → ((Fin 2 → K) → K) → COOMatrix K)
    (compute : SparseMatrix K → SparseLU K)
    (fe_space_p : FeSpace) (rho : (Fin 2 → K) → K) (N : Nat) (T : K)
    (ts : WaveABC2DTimestepper FeSpace K)
    (hts : WaveABC2DTimestepper.WaveABC2DTimestepper computeGalerkinMat compute
      fe_space_p rho N T = Except.ok ts) :
    ts.N_ = (N : K) ∧ ts.fe_space_p_ = fe_space_p ∧
    ts.N_dofs_ = (WaveABC2DTimestepper.A_COO computeGalerkinMat fe_space_p).cols ∧
    ts.solver_ = compute (WaveABC2DTimestepper.L computeGalerkinMat fe_space_p rho N T) := by
  simp only [WaveABC2DTimestepper.WaveABC2DTimestepper] at hts
  split at hts
  · exact absurd hts (by simp)
  · injection hts with hts
    subst hts
    exact ⟨rfl, rfl, rfl, rfl⟩

/-- C3. The constructor assembles the evolution matrix `L` as the 2x2 block matrix
`[[M + (1/2)*tau*B, (1/2)*tau*A], [-(1/2)*tau*I, I]]` of size `2*N_dofs x 2*N_dofs`, with
`tau = T / N`, `A`, `M`, `B` the matrices of the triplet lists of the stiffness, mass and
boundary mass matrices (duplicates summed) and `I` the identity: for `N >= 1` and triplets
with indices below `N_dofs`, every entry of `L` is the corresponding entry of the block
matrix. -/
theorem L_block_form
    (computeGalerkinMat :
      FeSpace → ((Fin 2 → K) → K) → ((Fin 2 → K) → K) → ((Fin 2 → K) → K) → COOMatrix K)
    (fe_space_p : FeSpace) (rho : (Fin 2 → K) → K) (N : Nat) (T : K)
    (_hN : 1 ≤ N)
    (hA : ∀ t ∈ (WaveABC2DTimestepper.A_COO computeGalerkinMat fe_space_p).triplets,
      t.row < (WaveABC2DTimestepper.A_COO computeGalerkinMat fe_space_p).cols ∧
      t.col < (WaveABC2DTimestepper.A_COO computeGalerkinMat fe_space_p).cols)
    (hM : ∀ t ∈ (WaveABC2DTimestepper.M_COO computeGalerkinMat fe_space_p rho).triplets,
      t.row < (WaveABC2DTimestepper.A_COO computeGalerkinMat fe_space_p).cols ∧
      t.col < (WaveABC2DTimestepper.A_COO computeGalerkinMat fe_space_p).cols)
    (hB : ∀ t ∈ (WaveABC2DTimestepper.B_COO computeGalerkinMat fe_space_p).triplets,
      t.row < (WaveABC2DTimestepper.A_COO computeGalerkinMat fe_space_p).cols ∧
      t.col < (WaveABC2DTimestepper.A_COO computeGalerkinMat fe_space_p).cols) :
    (WaveABC2DTimestepper.L computeGalerkinMat fe_space_p rho N T).rows
      = 2 * (WaveABC2DTimestepper.A_COO computeGalerkinMat fe_space_p).cols ∧
    (WaveABC2DTimestepper.L computeGalerkinMat fe_space_p rho N T).cols
      = 2 * (WaveABC2DTimestepper.A_COO computeGalerkinMat fe_space_p).cols ∧
    ∀ p q : Fin (WaveABC2DTimestepper.A_COO computeGalerkinMat fe_space_p).cols
        ⊕ Fin (WaveABC2DTimestepper.A_COO computeGalerkinMat fe_space_p).cols,
      (WaveABC2DTimestepper.L computeGalerkinMat fe_space_p rho N T).coeff
          (blockIndex _ p) (blockIndex _ q)
        = Matrix.fromBlocks
            (toMatrix _ (WaveABC2DTimestepper.M_COO computeGalerkinMat fe_space_p rho).makeSparse
              + (1 / 2 * (T / N)) •
                toMatrix _ (WaveABC2DTimestepper.B_COO computeGalerkinMat fe_space_p).makeSparse)
            ((1 / 2 * (T / N)) •
              toMatrix _ (WaveABC2DTimestepper.A_COO computeGalerkinMat fe_space_p).makeSparse)
            (-(1 / 2 * (T / N)) • (1 : Matrix _ _ K))
            (1 : Matrix _ _ K) p q :=
  L_COO_block _ _ _ N T hA hM hB

/-- C4. The constructor assembles the right-hand-side matrix `R_` as the 2x2 block matrix
`[[M - (1/2)*tau*B, -(1/2)*tau*A], [(1/2)*tau*I, I]]` of size `2*N_dofs x 2*N_dofs`, with
`tau`, `A`, `M`, `B`, `I` as for `L`: for `N >= 1` and triplets with indices below `N_dofs`,
the constructor returns a timestepper once the factorisation has reported success, and
every entry of the `R_` of a timestepper it returns is the corresponding entry of the block
matrix. -/
theorem R_block_form
    (computeGalerkinMat :
      FeSpace → ((Fin 2 → K) → K) → ((Fin 2 → K) → K) → ((Fin 2 → K) → K) → COOMatrix K)
    (compute : SparseMatrix K → SparseLU K)
    (fe_space_p : FeSpace) (rho : (Fin 2 → K) → K) (N : Nat) (T : K)
    (_hN : 1 ≤ N)
    (hA : ∀ t ∈ (WaveABC2DTimestepper.A_COO computeGalerkinMat fe_space_p).triplets,
      t.row < (WaveABC2DTimestepper.A_COO computeGalerkinMat fe_space_p).cols ∧
      t.col < (WaveABC2DTimestepper.A_COO computeGalerkinMat fe_space_p).cols)
    (hM : ∀ t ∈ (WaveABC2DTimestepper.M_COO computeGalerkinMat fe_space_p rho).triplets,
      t.row < (WaveABC2DTimestepper.A_COO computeGalerkinMat fe_space_p).cols ∧
      t.col < (WaveABC2DTimestepper.A_COO computeGalerkinMat fe_space_p).cols)
    (hB : ∀ t ∈ (WaveABC2DTimestepper.B_COO computeGalerkinMat fe_space_p).triplets,
      t.row < (WaveABC2DTimestepper.A_COO computeGalerkinMat fe_space_p).cols ∧
      t.col < (WaveABC2DTimestepper.A_COO computeGalerkinMat fe_space_p).cols) :
    ((compute (WaveABC2DTimestepper.L computeGalerkinMat fe_space_p rho N T)).info
          = ComputationInfo.Success →
      ∃ ts, WaveABC2DTimestepper.WaveABC2DTimestepper computeGalerkinMat compute
          fe_space_p rho N T = Except.ok ts) ∧
    ∀ ts, WaveABC2DTimestepper.WaveABC2DTimestepper computeGalerkinMat compute
          fe_space_p rho N T = Except.ok ts →
      ts.R_.rows = 2 * (WaveABC2DTimestepper.A_COO computeGalerkinMat fe_space_p).cols ∧
      ts.R_.cols = 2 * (WaveABC2DTimestepper.A_COO computeGalerkinMat fe_space_p).cols ∧
      ∀ p q : Fin (WaveABC2DTimestepper.A_COO computeGalerkinMat fe_space_p).cols
          ⊕ Fin (WaveABC2DTimestepper.A_COO computeGalerkinMat fe_space_p).cols,
        ts.R_.coeff (blockIndex _ p) (blockIndex _ q)
          = Matrix.fromBlocks
              (toMatrix _
                  (WaveABC2DTimestepper.M_COO computeGalerkinMat fe_space_p rho).makeSparse
                - (1 / 2 * (T / N)) •
                  toMatrix _
                    (WaveABC2DTimestepper.B_COO computeGalerkinMat fe_space_p).makeSparse)
              (-(1 / 2 * (T / N)) •
                toMatrix _ (WaveABC2DTimestepper.A_COO computeGalerkinMat fe_space_p).makeSparse)
              ((1 / 2 * (T / N)) • (1 : Matrix _ _ K))
              (1 : Matrix _ _ K) p q := by
  constructor
  · intro hs
    simp [WaveABC2DTimestepper.WaveABC2DTimestepper, hs]
  · intro ts hts
    simp only [WaveABC2DTimestepper.WaveABC2DTimestepper] at hts
    split at hts
    · exact absurd hts (by simp)
    · injection hts with hts
      subst hts
      exact R_COO_block _ _ _ N T hA hM hB

/-- C5. The constructor throws the runtime error "Could not decompose the matrix!" if and
only if the factorisation of the evolution matrix `L` does not report success; when it
reports success the constructor completes, and this is the only error it raises. -/
theorem constructor_throws_iff
    (computeGalerkinMat :
      FeSpace → ((Fin 2 → K) → K) → ((Fin 2 → K) → K) → ((Fin 2 → K) → K) → COOMatrix K)
    (compute : SparseMatrix K → SparseLU K)
    (fe_space_p : FeSpace) (rho : (Fin 2 → K) → K) (N : Nat) (T : K) :
    (WaveABC2DTimestepper.WaveABC2DTimestepper computeGalerkinMat compute fe_space_p rho N T
        = Except.error "Could not decompose the matrix!"
      ↔ (compute (WaveABC2DTimestepper.L computeGalerkinMat fe_space_p rho N T)).info
          ≠ ComputationInfo.Success) ∧
    ((compute (WaveABC2DTimestepper.L computeGalerkinMat fe_space_p rho N T)).info
          = ComputationInfo.Success →
      ∃ ts, WaveABC2DTimestepper.WaveABC2DTimestepper computeGalerkinMat compute
          fe_space_p rho N T = Except.ok ts) ∧
    (∀ e, WaveABC2DTimestepper.WaveABC2DTimestepper computeGalerkinMat compute
          fe_space_p rho N T = Except.error e →
      e = "Could not decompose the matrix!") := by
  by_cases h : (compute (WaveABC2DTimestepper.L computeGalerkinMat fe_space_p rho N T)).info
      = ComputationInfo.Success
  · refine ⟨?_, fun _ => ?_, fun e he => ?_⟩
    · simp [WaveABC2DTimestepper.WaveABC2DTimestepper, h]
    · simp [WaveABC2DTimestepper.WaveABC2DTimestepper, h]
    · simp [WaveABC2DTimestepper.WaveABC2DTimestepper, h] at he
  · refine ⟨?_, fun h2 => absurd h2 h, fun e he => ?_⟩
    · simp [WaveABC2DTimestepper.WaveABC2DTimestepper, h]
    · simp [WaveABC2DTimestepper.WaveABC2DTimestepper, h] at he
      exact he.symm

/-- C11. `solveWaveABC2D` performs exactly `N` timesteps of the precomputed scheme: on a
timestepper the constructor returned for `N` steps, whose factorisation solves the systems
with the evolution matrix `L`, and with fuel for `N` passes, there is a sequence of
states `s 0, s 1, ...` such that `s 0` has size `2*N_dofs`, holds the nodal values of `nu0`
in its first and those of `mu0` in its last `N_dofs` components, each `s (k+1)` is
`solver_.solve(R_ * s k)` and solves `L z = R_ (s k)`, and the call returns the last
`N_dofs` components of `s N` together with the unchanged object (same `R_`, same
factorisation); for `N = 0` the result is the vector of the nodal values of `mu0`. -/
theorem solveWaveABC2D_spec
    (computeGalerkinMat :
      FeSpace → ((Fin 2 → K) → K) → ((Fin 2 → K) → K) → ((Fin 2 → K) → K) → COOMatrix K)
    (compute : SparseMatrix K → SparseLU K)
    (NodalProjection : FeSpace → ((Fin 2 → K) → K) → VectorXd K)
    (fe_space_p : FeSpace) (rho : (Fin 2 → K) → K) (N : Nat) (T : K)
    (mu0 nu0 : (Fin 2 → K) → K) (uninitialised : Nat → K) (fuel : Nat)
    (ts : WaveABC2DTimestepper FeSpace K)
    (hts : WaveABC2DTimestepper.WaveABC2DTimestepper computeGalerkinMat compute
      fe_space_p rho N T = Except.ok ts)
    (hsolve : ∀ (b : VectorXd K) (r : Nat),
      r < 2 * (WaveABC2DTimestepper.A_COO computeGalerkinMat fe_space_p).cols →
      ((WaveABC2DTimestepper.L computeGalerkinMat fe_space_p rho N T).mulVec
          ((compute (WaveABC2DTimestepper.L computeGalerkinMat fe_space_p rho N T)).solve
            b)).coeff r = b.coeff r)
    (hfuel : N ≤ fuel) :
    ∃ s : Nat → VectorXd K,
      (s 0).size = 2 * ts.N_dofs_ ∧
      (∀ i, i < ts.N_dofs_ →
        (s 0).coeff i = (NodalProjection fe_space_p nu0).coeff i ∧
        (s 0).coeff (ts.N_dofs_ + i) = (NodalProjection fe_space_p mu0).coeff i) ∧
      (∀ k, s (k + 1) = ts.solver_.solve (ts.R_.mulVec (s k))) ∧
      (∀ k r, r < 2 * ts.N_dofs_ →
        ((WaveABC2DTimestepper.L computeGalerkinMat fe_space_p rho N T).mulVec
            (s (k + 1))).coeff r = (ts.R_.mulVec (s k)).coeff r) ∧
      WaveABC2DTimestepper.solveWaveABC2D NodalProjection ts mu0 nu0 uninitialised fuel
        = some ((s N).tail ts.N_dofs_, ts) ∧
      (N = 0 →
        ((s N).tail ts.N_dofs_).size = (ts.N_dofs_) ∧
        ∀ i, i < ts.N_dofs_ →
          ((s N).tail ts.N_dofs_).coeff i = (NodalProjection fe_space_p mu0).coeff i) := by
  obtain ⟨hN, hfe, hdofs, hsolver⟩ :=
    constructor_members computeGalerkinMat compute fe_space_p rho N T ts hts
  have hstart := VectorXd.start_vector ts.N_dofs_ uninitialised
    (NodalProjection fe_space_p nu0) (NodalProjection fe_space_p mu0)
  refine ⟨fun k => (fun s => ts.solver_.solve (ts.R_.mulVec s))^[k]
      (((VectorXd.alloc (2 * ts.N_dofs_) uninitialised).setHead ts.N_dofs_
        (NodalProjection fe_space_p nu0)).setTail ts.N_dofs_
        (NodalProjection fe_space_p mu0)), hstart.1, hstart.2, fun k => ?_, fun k r hr => ?_,
      ?_, fun h0 => ⟨rfl, fun i hi => ?_⟩⟩
  · exact Function.iterate_succ_apply' _ k _
  · beta_reduce
    rw [Function.iterate_succ_apply', hsolver]
    exact hsolve _ r (by rw [← hdofs]; exact hr)
  · simp only [WaveABC2DTimestepper.solveWaveABC2D, hfe]
    rw [timesteps_eq_iterate ts N hN fuel 0 _ (Nat.zero_le N) (by omega)]
    rfl
  · subst h0
    simp only [VectorXd.tail, Function.iterate_zero, id_eq]
    rw [hstart.1, show 2 * ts.N_dofs_ - ts.N_dofs_ + i = ts.N_dofs_ + i by omega]
    exact (hstart.2 i hi).2

/-- C3 on the sample matrices with `N = 4` and `T = 1`: the evolution matrix has four rows
and its entry `(2, 0)` is `-(1/2) * (1/4)`. -/
theorem L_block_form_witness :
    (1 ≤ 4) ∧
    (∀ t ∈ (WaveABC2DTimestepper.A_COO sampleGalerkinMat ()).triplets,
      t.row < 2 ∧ t.col < 2) ∧
    (WaveABC2DTimestepper.L sampleGalerkinMat () (fun _ => 3) 4 1).rows = 4 ∧
    (WaveABC2DTimestepper.L sampleGalerkinMat () (fun _ => 3) 4 1).coeff 2 0 = -(1 / 8) :=
  ⟨by decide, by decide,
    (L_block_form sampleGalerkinMat () (fun _ => 3) 4 1 (by decide) (by decide) (by decide)
      (by decide)).1,
    ((L_block_form sampleGalerkinMat () (fun _ => 3) 4 1 (by decide) (by decide) (by decide)
      (by decide)).2.2 (Sum.inr ⟨0, by decide⟩) (Sum.inl ⟨0, by decide⟩)).trans
      (by norm_num [Matrix.fromBlocks_apply₂₁])⟩

/-- C4 on the sample matrices with a solver that succeeds, `N = 4` and `T = 1`: the
constructor returns a timestepper whose `R_` has four rows and the entry `(1/2) * (1/4)`
at `(2, 0)`. -/
theorem R_block_form_witness :
    (1 ≤ 4) ∧
    (∃ ts, WaveABC2DTimestepper.WaveABC2DTimestepper sampleGalerkinMat sampleCompute ()
        (fun _ => 3) 4 1 = Except.ok ts ∧ ts.R_.rows = 4 ∧ ts.R_.coeff 2 0 = 1 / 8) :=
  ⟨by decide,
    ((R_block_form sampleGalerkinMat sampleCompute () (fun _ => 3) 4 1 (by decide)
      (by decide) (by decide) (by decide)).1 rfl).elim (fun ts hts =>
        ⟨ts, hts,
          ((R_block_form sampleGalerkinMat sampleCompute () (fun _ => 3) 4 1 (by decide)
            (by decide) (by decide) (by decide)).2 ts hts).1,
          (((R_block_form sampleGalerkinMat sampleCompute () (fun _ => 3) 4 1 (by decide)
            (by decide) (by decide) (by decide)).2 ts hts).2.2
              (Sum.inr ⟨0, by decide⟩) (Sum.inl ⟨0, by decide⟩)).trans
            (by norm_num [Matrix.fromBlocks_apply₂₁])⟩)⟩

/-- The constructor on the sample matrices with a solver that reports a numerical issue:
it throws. -/
theorem constructor_throws_example :
    WaveABC2DTimestepper.WaveABC2DTimestepper sampleGalerkinMat failingCompute ()
        (fun _ => 3) 4 1
      = Except.error "Could not decompose the matrix!" := by
  simp [WaveABC2DTimestepper.WaveABC2DTimestepper, failingCompute]

/-- The evolution matrix of the one-dof sample for `N = 2`, `T = 1`, evaluated. -/
theorem lineL_coeff :
    (WaveABC2DTimestepper.L lineGalerkinMat () (fun _ => 3) 2 1).coeff 0 0 = 13 / 4 ∧
    (WaveABC2DTimestepper.L lineGalerkinMat () (fun _ => 3) 2 1).coeff 0 1 = 1 / 4 ∧
    (WaveABC2DTimestepper.L lineGalerkinMat () (fun _ => 3) 2 1).coeff 1 0 = -(1 / 4) ∧
    (WaveABC2DTimestepper.L lineGalerkinMat () (fun _ => 3) 2 1).coeff 1 1 = 1 := by
  simp only [L_COO_coeff, WaveABC2DTimestepper.L, WaveABC2DTimestepper.A_COO,
    WaveABC2DTimestepper.M_COO, WaveABC2DTimestepper.B_COO, lineGalerkinMat]
  norm_num [List.range, List.range.loop]

/-- The direct 2x2 solver solves the systems with that evolution matrix. -/
theorem lineL_solved (b : VectorXd ℚ) (r : Nat) (hr : r < 2) :
    ((WaveABC2DTimestepper.L lineGalerkinMat () (fun _ => 3) 2 1).mulVec
      ((cramerCompute (WaveABC2DTimestepper.L lineGalerkinMat () (fun _ => 3) 2 1)).solve
        b)).coeff r = b.coeff r := by
  obtain ⟨h00, h01, h10, h11⟩ := lineL_coeff
  have hcols : (WaveABC2DTimestepper.L lineGalerkinMat () (fun _ => (3 : ℚ)) 2 1).cols = 2 :=
    (L_COO_dims _ _ _ _).2
  simp only [SparseMatrix.mulVec, hcols, Finset.sum_range_succ, Finset.range_zero,
    Finset.sum_empty, zero_add, cramerCompute, h00, h01, h10, h11]
  interval_cases r
  · rw [h00, h01]; ring
  · rw [h10, h11]; ring

/-- The constructor succeeds on the one-dof sample with the direct 2x2 solver. -/
theorem line_constructed :
    ∃ ts, WaveABC2DTimestepper.WaveABC2DTimestepper lineGalerkinMat cramerCompute ()
      (fun _ => 3) 2 1 = Except.ok ts := by
  obtain ⟨h00, h01, h10, h11⟩ := lineL_coeff
  simp [WaveABC2DTimestepper.WaveABC2DTimestepper, cramerCompute, h00, h01, h10, h11]
  norm_num

/-- C11 on the one-dof sample with `N = 2`, `T = 1`, `mu0 = 2`, `nu0 = 1` and fuel for two
passes: the constructor returns a timestepper and the call returns the last component of
the second state together with the unchanged timestepper. -/
theorem solveWaveABC2D_spec_witness :
    (2 ≤ 2) ∧
    ∃ ts, WaveABC2DTimestepper.WaveABC2DTimestepper lineGalerkinMat cramerCompute ()
        (fun _ => 3) 2 1 = Except.ok ts ∧
      ∃ s : Nat → VectorXd ℚ,
        (s 0).size = 2 * ts.N_dofs_ ∧
        (∀ k, s (k + 1) = ts.solver_.solve (ts.R_.mulVec (s k))) ∧
        WaveABC2DTimestepper.solveWaveABC2D originProjection ts (fun _ => 2) (fun _ => 1)
          (fun _ => 0) 2 = some ((s 2).tail ts.N_dofs_, ts) :=
  ⟨le_refl 2,
    line_constructed.elim (fun ts hts =>
      ⟨ts, hts,
        (solveWaveABC2D_spec lineGalerkinMat cramerCompute originProjection ()
          (fun _ => 3) 2 1 (fun _ => 2) (fun _ => 1) (fun _ => 0) 2 ts hts
          (fun b r hr => lineL_solved b r hr) (le_refl 2)).imp
          (fun _ hs => ⟨hs.1, hs.2.2.1, hs.2.2.2.2.1⟩)⟩)⟩

end WaveABC2D

/-! ## StableEvaluationAtAPoint: where the fundamental solution is defined -/

namespace StableEvaluationAtAPoint

open Eigen

/-! ### Rounding to binary64 -/

theorem roundHalfEven_intCast (n : ℤ) : roundHalfEven (n : ℚ) = n := by
  simp [roundHalfEven]

theorem roundHalfEven_of_lt_half (t : ℚ) (h0 : 0 ≤ t) (h1 : t < 1 / 2) :
    roundHalfEven t = 0 := by
  have hf : ⌊t⌋ = 0 := by
    rw [Int.floor_eq_iff]
    constructor
    · simpa using h0
    · have : t < 1 := by linarith
      simpa using this
  unfold roundHalfEven
  rw [hf]
  simp only [Int.cast_zero, sub_zero]
  rw [if_pos h1]

theorem roundToDouble_zero : roundToDouble 0 = 0 := by
  simp [roundToDouble, roundHalfEven]

theorem log_abs_zpow (e : ℤ) : Int.log 2 |(2 : ℚ) ^ e| = e := by
  rw [abs_of_pos (zpow_pos (by norm_num) e)]
  have h := Int.log_zpow (R := ℚ) (b := 2) (by norm_num) e
  simpa using h

/-- A power of two in the normal range is a double, and so is its negative. -/
theorem roundToDouble_neg_zpow (e : ℤ) (he : -1022 ≤ e) :
    roundToDouble (-(2 : ℚ) ^ e) = -(2 : ℚ) ^ e := by
  have hE : ulpExponent (-(2 : ℚ) ^ e) = e - 52 := by
    rw [ulpExponent, abs_neg, log_abs_zpow, max_eq_left he]
  have hq : (-(2 : ℚ) ^ e) / 2 ^ (e - 52) = ((-(2 ^ 52) : ℤ) : ℚ) := by
    rw [zpow_sub₀ (by norm_num : (2 : ℚ) ≠ 0)]
    have : (2 : ℚ) ^ e ≠ 0 := zpow_ne_zero _ (by norm_num)
    field_simp
    norm_num
    ring
  rw [roundToDouble, hE, hq, roundHalfEven_intCast, zpow_sub₀ (by norm_num : (2 : ℚ) ≠ 0)]
  have : (2 : ℚ) ^ e ≠ 0 := zpow_ne_zero _ (by norm_num)
  push_cast
  field_simp
  norm_num
  ring

/-- Underflow: a positive rational below half the smallest subnormal rounds to zero. -/
theorem roundToDouble_underflow (q : ℚ) (h0 : 0 < q) (h1 : q < (2 : ℚ) ^ (-1075 : ℤ)) :
    roundToDouble q = 0 := by
  have hlog : Int.log 2 |q| < -1075 := by
    rw [abs_of_pos h0, ← Int.lt_zpow_iff_log_lt (by norm_num) h0]
    simpa using h1
  have hE : ulpExponent q = -1074 := by
    rw [ulpExponent, max_eq_right (by omega)]
    norm_num
  have hlt : q / 2 ^ (-1074 : ℤ) < 1 / 2 := by
    rw [div_lt_iff₀ (zpow_pos (by norm_num) _)]
    calc q < (2 : ℚ) ^ (-1075 : ℤ) := h1
      _ = 1 / 2 * 2 ^ (-1074 : ℤ) := by
        rw [show (-1075 : ℤ) = -1074 - 1 by norm_num, zpow_sub₀ (by norm_num : (2 : ℚ) ≠ 0)]
        simp
        ring
  have hge : 0 ≤ q / 2 ^ (-1074 : ℤ) := div_nonneg h0.le (zpow_pos (by norm_num) _).le
  rw [roundToDouble, hE, roundHalfEven_of_lt_half _ hge hlt]
  simp

/-- The rounded value lies between the floor and the floor plus one. -/
theorem roundHalfEven_bounds (t : ℚ) : (⌊t⌋ ≤ roundHalfEven t) ∧ (roundHalfEven t ≤ ⌊t⌋ + 1) := by
  unfold roundHalfEven
  split_ifs <;> constructor <;> omega

/-- Rounding to the nearest integer is monotone. -/
theorem roundHalfEven_mono {s t : ℚ} (h : s ≤ t) : roundHalfEven s ≤ roundHalfEven t := by
  rcases lt_or_eq_of_le (Int.floor_mono h) with hlt | heq
  · exact le_trans (roundHalfEven_bounds s).2 (le_trans hlt (roundHalfEven_bounds t).1)
  · have hfr : s - ⌊s⌋ ≤ t - ⌊t⌋ := by rw [heq]; linarith
    unfold roundHalfEven
    rw [heq]
    split_ifs <;> first | omega | (exfalso; linarith)

/-- Rounding to the nearest integer, ties to even, is odd. -/
theorem roundHalfEven_neg (t : ℚ) : roundHalfEven (-t) = -roundHalfEven t := by
  by_cases hint : (⌊t⌋ : ℚ) = t
  · rw [← hint, ← Int.cast_neg, roundHalfEven_intCast, roundHalfEven_intCast]
  · have hlt : (⌊t⌋ : ℚ) < t := lt_of_le_of_ne (Int.floor_le t) hint
    have hlt2 : t < ⌊t⌋ + 1 := Int.lt_floor_add_one t
    have hfl : ⌊-t⌋ = -⌊t⌋ - 1 := by
      rw [Int.floor_eq_iff]
      push_cast
      constructor <;> linarith
    unfold roundHalfEven
    rw [hfl]
    push_cast
    split_ifs <;> first | omega | (exfalso; linarith)


theorem two_zpow_pos (e : ℤ) : (0 : ℚ) < 2 ^ e := zpow_pos (by norm_num) e

/-- The binade of a positive rational. -/
theorem log_spec (q : ℚ) (h : 0 < q) :
    (2 : ℚ) ^ Int.log 2 q ≤ q ∧ q < (2 : ℚ) ^ (Int.log 2 q + 1) := by
  have h1 := Int.zpow_log_le_self (R := ℚ) (b := 2) (by norm_num) h
  have h2 := Int.lt_zpow_succ_log_self (R := ℚ) (b := 2) (by norm_num) q
  constructor
  · simpa using h1
  · simpa using h2

theorem log_eq_of_bounds (q : ℚ) (e : ℤ) (h1 : (2 : ℚ) ^ e ≤ q) (h2 : q < (2 : ℚ) ^ (e + 1)) :
    Int.log 2 q = e := by
  have hq : 0 < q := lt_of_lt_of_le (two_zpow_pos e) h1
  have a1 : e ≤ Int.log 2 q := by
    rw [← Int.zpow_le_iff_le_log (by norm_num) hq]
    simpa using h1
  have a2 : Int.log 2 q < e + 1 := by
    rw [← Int.lt_zpow_iff_log_lt (by norm_num) hq]
    simpa using h2
  omega

theorem ulpExponent_neg (q : ℚ) : ulpExponent (-q) = ulpExponent q := by
  rw [ulpExponent, ulpExponent, abs_neg]

/-- Rounding to binary64 is odd. -/
theorem roundToDouble_neg (q : ℚ) : roundToDouble (-q) = -roundToDouble q := by
  rw [roundToDouble, roundToDouble, ulpExponent_neg, neg_div, roundHalfEven_neg]
  push_cast
  ring

theorem roundHalfEven_zero : roundHalfEven 0 = 0 := by
  simp [roundHalfEven]

/-- Rounding to binary64 keeps the sign. -/
theorem roundToDouble_nonneg (q : ℚ) (h : 0 ≤ q) : 0 ≤ roundToDouble q := by
  rw [roundToDouble]
  apply mul_nonneg _ (two_zpow_pos _).le
  have h1 : roundHalfEven 0 ≤ roundHalfEven (q / 2 ^ ulpExponent q) :=
    roundHalfEven_mono (div_nonneg h (two_zpow_pos _).le)
  rw [roundHalfEven_zero] at h1
  exact_mod_cast h1

/-- An integer multiple of the unit in the last place is a double. -/
theorem roundToDouble_of_ulpExponent (k E : ℤ) (h : ulpExponent ((k : ℚ) * 2 ^ E) = E) :
    roundToDouble ((k : ℚ) * 2 ^ E) = (k : ℚ) * 2 ^ E := by
  rw [roundToDouble, h, mul_div_assoc, div_self (ne_of_gt (two_zpow_pos E)), mul_one,
    roundHalfEven_intCast]

/-- A normal double: 53 significant bits. -/
theorem roundToDouble_normal (k E : ℤ) (h1 : (2 : ℤ) ^ 52 ≤ k) (h2 : k < (2 : ℤ) ^ 53)
    (hE : -1074 ≤ E) : roundToDouble ((k : ℚ) * 2 ^ E) = (k : ℚ) * 2 ^ E := by
  apply roundToDouble_of_ulpExponent
  have hk1 : ((2 : ℚ) ^ (52 : ℤ)) ≤ (k : ℚ) := by
    have : (((2 : ℤ) ^ 52 : ℤ) : ℚ) ≤ (k : ℚ) := by exact_mod_cast h1
    rw [show ((2 : ℚ) ^ (52 : ℤ)) = (((2 : ℤ) ^ 52 : ℤ) : ℚ) by norm_num]
    exact this
  have hk2 : (k : ℚ) < ((2 : ℚ) ^ (53 : ℤ)) := by
    have : (k : ℚ) < (((2 : ℤ) ^ 53 : ℤ) : ℚ) := by exact_mod_cast h2
    rw [show ((2 : ℚ) ^ (53 : ℤ)) = (((2 : ℤ) ^ 53 : ℤ) : ℚ) by norm_num]
    exact this
  have hpos : (0 : ℚ) < (k : ℚ) * 2 ^ E :=
    mul_pos (lt_of_lt_of_le (two_zpow_pos 52) hk1) (two_zpow_pos E)
  have hlog : Int.log 2 ((k : ℚ) * 2 ^ E) = 52 + E := by
    apply log_eq_of_bounds
    · rw [zpow_add₀ (by norm_num : (2 : ℚ) ≠ 0)]
      exact mul_le_mul_of_nonneg_right hk1 (two_zpow_pos E).le
    · rw [show 52 + E + 1 = 53 + E by ring, zpow_add₀ (by norm_num : (2 : ℚ) ≠ 0)]
      exact mul_lt_mul_of_pos_right hk2 (two_zpow_pos E)
  rw [ulpExponent, abs_of_pos hpos, hlog, max_eq_left (by omega)]
  ring

/-- A subnormal double: a multiple of `2^-1074` below `2^-1022`. -/
theorem roundToDouble_subnormal (k : ℤ) (h1 : 0 ≤ k) (h2 : k < (2 : ℤ) ^ 52) :
    roundToDouble ((k : ℚ) * 2 ^ (-1074 : ℤ)) = (k : ℚ) * 2 ^ (-1074 : ℤ) := by
  rcases eq_or_lt_of_le h1 with h0 | hpos
  · rw [← h0]
    simp [roundToDouble_zero]
  apply roundToDouble_of_ulpExponent
  have hk2 : (k : ℚ) < ((2 : ℚ) ^ (52 : ℤ)) := by
    have : (k : ℚ) < (((2 : ℤ) ^ 52 : ℤ) : ℚ) := by exact_mod_cast h2
    rw [show ((2 : ℚ) ^ (52 : ℤ)) = (((2 : ℤ) ^ 52 : ℤ) : ℚ) by norm_num]
    exact this
  have hkpos : (0 : ℚ) < (k : ℚ) := by exact_mod_cast hpos
  have hqpos : (0 : ℚ) < (k : ℚ) * 2 ^ (-1074 : ℤ) := mul_pos hkpos (two_zpow_pos _)
  have hlog : Int.log 2 ((k : ℚ) * 2 ^ (-1074 : ℤ)) < -1022 := by
    rw [← Int.lt_zpow_iff_log_lt (by norm_num) hqpos]
    have : (k : ℚ) * 2 ^ (-1074 : ℤ) < 2 ^ (52 : ℤ) * 2 ^ (-1074 : ℤ) :=
      mul_lt_mul_of_pos_right hk2 (two_zpow_pos _)
    rw [← zpow_add₀ (by norm_num : (2 : ℚ) ≠ 0)] at this
    simpa using this
  rw [ulpExponent, abs_of_pos hqpos, max_eq_right (by omega)]
  norm_num


theorem two_zpow_eq_intCast (z : ℤ) (hz : 0 ≤ z) :
    (2 : ℚ) ^ z = (((2 : ℤ) ^ z.toNat : ℤ) : ℚ) := by
  obtain ⟨n, rfl⟩ := Int.eq_ofNat_of_zero_le hz
  simp

/-- The binade of a positive rational in terms of its unit in the last place. -/
theorem ulp_bounds (a : ℚ) (ha : 0 < a) :
    a < (2 : ℚ) ^ (ulpExponent a + 53) ∧
    (-1022 ≤ Int.log 2 a → (2 : ℚ) ^ (ulpExponent a + 52) ≤ a) := by
  obtain ⟨h1, h2⟩ := log_spec a ha
  rw [ulpExponent, abs_of_pos ha]
  constructor
  · refine lt_of_lt_of_le h2 (zpow_le_zpow_right₀ (by norm_num) ?_)
    have := le_max_left (Int.log 2 a) (-1022)
    omega
  · intro hn
    rw [max_eq_left hn, show Int.log 2 a - 52 + 52 = Int.log 2 a by ring]
    exact h1

/-- The shape of the rounding of a positive rational: an integer `k` with at most 53 bits
times a power of two, the exponent being the smallest one when `k` has fewer bits. -/
theorem roundToDouble_pos_form (a : ℚ) (ha : 0 < a) :
    (0 ≤ roundHalfEven (a / 2 ^ ulpExponent a)) ∧
    (roundHalfEven (a / 2 ^ ulpExponent a) ≤ (2 : ℤ) ^ 53) ∧
    (-1074 ≤ ulpExponent a) ∧
    (roundHalfEven (a / 2 ^ ulpExponent a) < (2 : ℤ) ^ 52 → ulpExponent a = -1074) := by
  obtain ⟨hlt, hge⟩ := ulp_bounds a ha
  have hE : -1074 ≤ ulpExponent a := by
    rw [ulpExponent]
    have := le_max_right (Int.log 2 |a|) (-1022)
    omega
  have hupos := two_zpow_pos (ulpExponent a)
  refine ⟨?_, ?_, hE, ?_⟩
  · have h := roundHalfEven_mono (div_nonneg ha.le hupos.le)
    rwa [roundHalfEven_zero] at h
  · have hle : a / 2 ^ ulpExponent a ≤ (((2 : ℤ) ^ 53 : ℤ) : ℚ) := by
      rw [div_le_iff₀ hupos]
      have : (((2 : ℤ) ^ 53 : ℤ) : ℚ) * 2 ^ ulpExponent a = 2 ^ (ulpExponent a + 53) := by
        rw [zpow_add₀ (by norm_num : (2 : ℚ) ≠ 0)]
        norm_num
        ring
      rw [this]
      exact hlt.le
    have h := roundHalfEven_mono hle
    rwa [roundHalfEven_intCast] at h
  · intro hk
    by_contra hne
    have hn : -1022 ≤ Int.log 2 a := by
      by_contra hcon
      apply hne
      rw [ulpExponent, abs_of_pos ha, max_eq_right (by omega)]
      norm_num
    have hle : (((2 : ℤ) ^ 52 : ℤ) : ℚ) ≤ a / 2 ^ ulpExponent a := by
      rw [le_div_iff₀ hupos]
      have : (((2 : ℤ) ^ 52 : ℤ) : ℚ) * 2 ^ ulpExponent a = 2 ^ (ulpExponent a + 52) := by
        rw [zpow_add₀ (by norm_num : (2 : ℚ) ≠ 0)]
        norm_num
        ring
      rw [this]
      exact hge hn
    have h := roundHalfEven_mono hle
    rw [roundHalfEven_intCast] at h
    omega

/-- A number of that shape is a double. -/
theorem roundToDouble_of_form (k E : ℤ) (h0 : 0 ≤ k) (h53 : k ≤ (2 : ℤ) ^ 53)
    (hE : -1074 ≤ E) (hsub : k < (2 : ℤ) ^ 52 → E = -1074) :
    roundToDouble ((k : ℚ) * 2 ^ E) = (k : ℚ) * 2 ^ E := by
  by_cases hk : k < (2 : ℤ) ^ 52
  · rw [hsub hk]
    exact roundToDouble_subnormal k h0 hk
  · by_cases hk2 : k < (2 : ℤ) ^ 53
    · exact roundToDouble_normal k E (by omega) hk2 hE
    · have hk3 : k = (2 : ℤ) ^ 53 := by omega
      have hre : (k : ℚ) * 2 ^ E = (((2 : ℤ) ^ 52 : ℤ) : ℚ) * 2 ^ (E + 1) := by
        rw [hk3, zpow_add₀ (by norm_num : (2 : ℚ) ≠ 0)]
        norm_num
        ring
      rw [hre]
      exact roundToDouble_normal _ (E + 1) (le_refl _) (by norm_num) (by omega)

/-- Rounding is idempotent: the result of a rounding is a double. -/
theorem roundToDouble_idempotent (a : ℚ) :
    roundToDouble (roundToDouble a) = roundToDouble a := by
  have hpos : ∀ b : ℚ, 0 < b → roundToDouble (roundToDouble b) = roundToDouble b := by
    intro b hb
    obtain ⟨h0, h53, hE, hsub⟩ := roundToDouble_pos_form b hb
    have h := roundToDouble_of_form _ _ h0 h53 hE hsub
    rw [roundToDouble]
    exact h
  rcases lt_trichotomy a 0 with hneg | hzero | hp
  · have h := hpos (-a) (neg_pos.mpr hneg)
    rw [roundToDouble_neg, roundToDouble_neg] at h
    exact neg_injective h
  · rw [hzero, roundToDouble_zero, roundToDouble_zero]
  · exact hpos a hp


theorem ulpExponent_mono_pos (a b : ℚ) (ha : 0 < a) (hab : a ≤ b) :
    ulpExponent a ≤ ulpExponent b := by
  have hb : 0 < b := lt_of_lt_of_le ha hab
  have h := Int.log_mono_right (b := 2) ha hab
  rw [ulpExponent, ulpExponent, abs_of_pos ha, abs_of_pos hb]
  have := max_le_max h (le_refl (-1022 : ℤ))
  omega

theorem roundToDouble_mono_pos (a b : ℚ) (ha : 0 < a) (hab : a ≤ b) :
    roundToDouble a ≤ roundToDouble b := by
  have hb : 0 < b := lt_of_lt_of_le ha hab
  rcases eq_or_lt_of_le (ulpExponent_mono_pos a b ha hab) with heq | hlt
  · rw [roundToDouble, roundToDouble, heq]
    apply mul_le_mul_of_nonneg_right _ (two_zpow_pos _).le
    have h := roundHalfEven_mono
      (div_le_div_of_nonneg_right hab (two_zpow_pos (ulpExponent b)).le)
    exact_mod_cast h
  · have hEa : -1074 ≤ ulpExponent a := (roundToDouble_pos_form a ha).2.2.1
    have hn : -1022 ≤ Int.log 2 b := by
      by_contra hcon
      have : ulpExponent b = -1074 := by
        rw [ulpExponent, abs_of_pos hb, max_eq_right (by omega)]
        norm_num
      omega
    have hua := two_zpow_pos (ulpExponent a)
    have hub := two_zpow_pos (ulpExponent b)
    have hp1 : (2 : ℚ) ^ (ulpExponent b + 52) ≤ roundToDouble b := by
      have hle : (((2 : ℤ) ^ 52 : ℤ) : ℚ) ≤ b / 2 ^ ulpExponent b := by
        rw [le_div_iff₀ hub]
        have : (((2 : ℤ) ^ 52 : ℤ) : ℚ) * 2 ^ ulpExponent b = 2 ^ (ulpExponent b + 52) := by
          rw [zpow_add₀ (by norm_num : (2 : ℚ) ≠ 0)]
          norm_num
          ring
        rw [this]
        exact (ulp_bounds b hb).2 hn
      have h := roundHalfEven_mono hle
      rw [roundHalfEven_intCast] at h
      have h2 : (((2 : ℤ) ^ 52 : ℤ) : ℚ) ≤ (roundHalfEven (b / 2 ^ ulpExponent b) : ℚ) := by
        exact_mod_cast h
      rw [roundToDouble, zpow_add₀ (by norm_num : (2 : ℚ) ≠ 0), mul_comm ((2 : ℚ) ^ _)]
      refine le_trans ?_ (mul_le_mul_of_nonneg_right h2 hub.le)
      norm_num
    have hp2 : roundToDouble a ≤ (2 : ℚ) ^ (ulpExponent b + 52) := by
      have hz : 0 ≤ ulpExponent b + 52 - ulpExponent a := by omega
      have hsplit : (2 : ℚ) ^ (ulpExponent b + 52)
          = (((2 : ℤ) ^ (ulpExponent b + 52 - ulpExponent a).toNat : ℤ) : ℚ)
            * 2 ^ ulpExponent a := by
        rw [← two_zpow_eq_intCast _ hz, ← zpow_add₀ (by norm_num : (2 : ℚ) ≠ 0)]
        congr 1
        ring
      have hle : a / 2 ^ ulpExponent a
          ≤ (((2 : ℤ) ^ (ulpExponent b + 52 - ulpExponent a).toNat : ℤ) : ℚ) := by
        rw [div_le_iff₀ hua, ← hsplit]
        refine le_trans (ulp_bounds a ha).1.le (zpow_le_zpow_right₀ (by norm_num) ?_)
        omega
      have h := roundHalfEven_mono hle
      rw [roundHalfEven_intCast] at h
      have h2 : (roundHalfEven (a / 2 ^ ulpExponent a) : ℚ)
          ≤ (((2 : ℤ) ^ (ulpExponent b + 52 - ulpExponent a).toNat : ℤ) : ℚ) := by
        exact_mod_cast h
      rw [roundToDouble, hsplit]
      exact mul_le_mul_of_nonneg_right h2 hua.le
    exact le_trans hp2 hp1

/-- Rounding is monotone. -/
theorem roundToDouble_monotone : Monotone roundToDouble := by
  intro a b hab
  rcases lt_or_le 0 a with ha | ha
  · exact roundToDouble_mono_pos a b ha hab
  · have hra : roundToDouble a ≤ 0 := by
      have h := roundToDouble_nonneg (-a) (neg_nonneg.mpr ha)
      rw [roundToDouble_neg] at h
      linarith
    rcases le_or_lt 0 b with hb | hb
    · exact le_trans hra (roundToDouble_nonneg b hb)
    · have h := roundToDouble_mono_pos (-b) (-a) (neg_pos.mpr hb) (neg_le_neg hab)
      rw [roundToDouble_neg, roundToDouble_neg] at h
      linarith

/-- The double `2.0 * M_PI` is computed exactly and is at least one. -/
theorem one_le_two_pi (log sqrt : ℚ → ℚ) :
    1 ≤ (binary64 log sqrt).round (2 * (binary64 log sqrt).M_PI) := by
  have hform : (2 : ℚ) * (884279719003555 / 281474976710656)
      = ((7074237752028440 : ℤ) : ℚ) * 2 ^ (-50 : ℤ) := by
    rw [show (-50 : ℤ) = -(50 : ℕ) by norm_num, zpow_neg, zpow_natCast]
    norm_num
  have h := roundToDouble_normal 7074237752028440 (-50) (by norm_num) (by norm_num)
    (by norm_num)
  show 1 ≤ roundToDouble (2 * (884279719003555 / 281474976710656))
  rw [hform, h, ← hform]
  norm_num

/-- The rounding of binary64 meets the conditions put on the arithmetic below: it fixes
zero, is monotone and idempotent, and `2.0 * M_PI` is at least one. -/
theorem binary64_rounding (log sqrt : ℚ → ℚ) :
    (binary64 log sqrt).round 0 = 0 ∧
    Monotone (binary64 log sqrt).round ∧
    (∀ a, (binary64 log sqrt).round ((binary64 log sqrt).round a)
      = (binary64 log sqrt).round a) ∧
    1 ≤ (binary64 log sqrt).round (2 * (binary64 log sqrt).M_PI) :=
  ⟨roundToDouble_zero, roundToDouble_monotone, roundToDouble_idempotent,
    one_le_two_pi log sqrt⟩

/-! ### The assertion and the two values -/

variable {K : Type} [LinearOrderedField K]

theorem vectorNe_eq_false_iff (a b : Fin 2 → K) : vectorNe a b = false ↔ b = a := by
  simp only [vectorNe, Bool.or_eq_false_iff, decide_eq_false_iff_not, not_not, ne_eq]
  constructor
  · rintro ⟨h0, h1⟩
    funext i
    fin_cases i
    · exact h0.symm
    · exact h1.symm
  · intro h
    subst h
    exact ⟨rfl, rfl⟩

theorem vectorNe_eq_true_of_ne (x y : Fin 2 → K) (h : y ≠ x) : vectorNe x y = true := by
  by_contra hcon
  have h2 : vectorNe x y = false := by simpa using hcon
  exact h ((vectorNe_eq_false_iff x y).mp h2)

/-- The assertion of `operator()` fails exactly at the source point. -/
theorem call_error_iff (m : CMath K) (x y : Fin 2 → K) :
    (∃ msg, FundamentalSolution.call m ⟨x⟩ y = Except.error msg) ↔ y = x := by
  by_cases h : vectorNe x y = true
  · have hxy : ¬ y = x := fun e => by
      rw [(vectorNe_eq_false_iff x y).mpr e] at h; exact Bool.false_ne_true h
    simp [FundamentalSolution.call, LF_ASSERT_MSG, h, hxy, bind, Except.bind, pure,
      Except.pure]
  · have h2 : vectorNe x y = false := by simpa using h
    have hxy : y = x := (vectorNe_eq_false_iff x y).mp h2
    refine ⟨fun _ => hxy, fun _ => ⟨"G not defined for these coordinates!", ?_⟩⟩
    simp [FundamentalSolution.call, LF_ASSERT_MSG, h2, bind, Except.bind]

/-- The assertion of `grad` fails exactly at the source point. -/
theorem grad_error_iff (m : CMath K) (x y : Fin 2 → K) :
    (∃ msg, FundamentalSolution.grad m ⟨x⟩ y = Except.error msg) ↔ y = x := by
  by_cases h : vectorNe x y = true
  · have hxy : ¬ y = x := fun e => by
      rw [(vectorNe_eq_false_iff x y).mpr e] at h; exact Bool.false_ne_true h
    simp [FundamentalSolution.grad, LF_ASSERT_MSG, h, hxy, bind, Except.bind, pure,
      Except.pure]
  · have h2 : vectorNe x y = false := by simpa using h
    have hxy : y = x := (vectorNe_eq_false_iff x y).mp h2
    refine ⟨fun _ => hxy, fun _ => ⟨"G not defined for these coordinates!", ?_⟩⟩
    simp [FundamentalSolution.grad, LF_ASSERT_MSG, h2, bind, Except.bind]

/-- Past the assertion `operator()` returns the value of its expression. -/
theorem call_of_ne (m : CMath K) (x y : Fin 2 → K) (h : y ≠ x) :
    FundamentalSolution.call m ⟨x⟩ y
      = Except.ok ((fdiv m (-1) (m.round (2 * m.M_PI))).bind (fun c =>
          (flog m (norm m (vsub m x y))).bind (fun l => some (m.round (c * l))))) := by
  simp only [FundamentalSolution.call, LF_ASSERT_MSG, vectorNe_eq_true_of_ne x y h, if_true]
  rfl

/-- Past the assertion `grad` returns the value of its expression. -/
theorem grad_of_ne (m : CMath K) (x y : Fin 2 → K) (h : y ≠ x) :
    FundamentalSolution.grad m ⟨x⟩ y
      = Except.ok (fun i => fdiv m (vsub m x y i)
          (m.round (m.round (2 * m.M_PI) * squaredNorm m (vsub m x y)))) := by
  simp only [FundamentalSolution.grad, LF_ASSERT_MSG, vectorNe_eq_true_of_ne x y h, if_true]
  rfl

/-- With a monotone rounding that fixes zero the computed squared norm is not negative. -/
theorem squaredNorm_nonneg (m : CMath K) (hzero : m.round 0 = 0) (hmono : Monotone m.round)
    (v : Fin 2 → K) : 0 ≤ squaredNorm m v := by
  have h0 : 0 ≤ m.round (v 0 * v 0) := by
    rw [← hzero]; exact hmono (mul_self_nonneg _)
  have h1 : 0 ≤ m.round (v 1 * v 1) := by
    rw [← hzero]; exact hmono (mul_self_nonneg _)
  rw [squaredNorm, ← hzero]
  exact hmono (add_nonneg h0 h1)

/-- In exact arithmetic the squared norm of the difference of two distinct points is
positive. -/
theorem squaredNorm_pos_of_exact (m : CMath K) (hexact : ∀ a, m.round a = a)
    (x y : Fin 2 → K) (h : y ≠ x) : 0 < squaredNorm m (vsub m x y) := by
  have hne : x 0 - y 0 ≠ 0 ∨ x 1 - y 1 ≠ 0 := by
    by_contra hcon
    push_neg at hcon
    apply h
    funext i
    fin_cases i
    · exact (sub_eq_zero.mp hcon.1).symm
    · exact (sub_eq_zero.mp hcon.2).symm
  simp only [squaredNorm, vsub, hexact]
  rcases hne with h0 | h1
  · have := mul_self_pos.mpr h0
    have := mul_self_nonneg (x 1 - y 1)
    linarith
  · have := mul_self_pos.mpr h1
    have := mul_self_nonneg (x 0 - y 0)
    linarith

/-- The two cases past the assertion: the computed squared norm decides whether the values
of `operator()` and `grad` are finite. -/
theorem defined_unless_underflow_cases (m : CMath K)
    (hzero : m.round 0 = 0) (hmono : Monotone m.round)
    (hidem : ∀ a, m.round (m.round a) = m.round a)
    (hpi : 1 ≤ m.round (2 * m.M_PI))
    (hsqrt : ∀ a, 0 < a → 0 < m.sqrt a) (hsqrt0 : m.sqrt 0 = 0)
    (x y : Fin 2 → K) :
    ((∃ msg, FundamentalSolution.call m ⟨x⟩ y = Except.error msg) ↔ y = x) ∧
    ((∃ msg, FundamentalSolution.grad m ⟨x⟩ y = Except.error msg) ↔ y = x) ∧
    (y ≠ x → squaredNorm m (vsub m x y) ≠ 0 →
      m.round (2 * m.M_PI) ≠ 0 ∧
      norm m (vsub m x y) ≠ 0 ∧
      m.round (m.round (2 * m.M_PI) * squaredNorm m (vsub m x y)) ≠ 0 ∧
      FundamentalSolution.call m ⟨x⟩ y
        = Except.ok (some (m.round (m.round (-1 / m.round (2 * m.M_PI)) *
            m.log (norm m (vsub m x y))))) ∧
      FundamentalSolution.grad m ⟨x⟩ y
        = Except.ok (fun i => some (m.round (vsub m x y i /
            m.round (m.round (2 * m.M_PI) * squaredNorm m (vsub m x y)))))) ∧
    (y ≠ x → squaredNorm m (vsub m x y) = 0 →
      norm m (vsub m x y) = 0 ∧
      m.round (m.round (2 * m.M_PI) * squaredNorm m (vsub m x y)) = 0 ∧
      FundamentalSolution.call m ⟨x⟩ y = Except.ok none ∧
      FundamentalSolution.grad m ⟨x⟩ y = Except.ok (fun _ => none)) ∧
    ((∀ a, m.round a = a) → y ≠ x → squaredNorm m (vsub m x y) ≠ 0) := by
  have hc : m.round (2 * m.M_PI) ≠ 0 := ne_of_gt (lt_of_lt_of_le one_pos hpi)
  refine ⟨call_error_iff m x y, grad_error_iff m x y, fun hne hsn => ?_, fun hne hsn => ?_,
    fun hexact hne => ne_of_gt (squaredNorm_pos_of_exact m hexact x y hne)⟩
  · have hpos : 0 < squaredNorm m (vsub m x y) :=
      lt_of_le_of_ne (squaredNorm_nonneg m hzero hmono _) (Ne.symm hsn)
    have hnorm : norm m (vsub m x y) ≠ 0 := ne_of_gt (hsqrt _ hpos)
    have hfix : m.round (squaredNorm m (vsub m x y)) = squaredNorm m (vsub m x y) := by
      rw [squaredNorm, hidem]
    have hdiv : m.round (m.round (2 * m.M_PI) * squaredNorm m (vsub m x y)) ≠ 0 := by
      apply ne_of_gt
      have hle : squaredNorm m (vsub m x y)
          ≤ m.round (2 * m.M_PI) * squaredNorm m (vsub m x y) :=
        le_mul_of_one_le_left hpos.le hpi
      calc 0 < squaredNorm m (vsub m x y) := hpos
        _ = m.round (squaredNorm m (vsub m x y)) := hfix.symm
        _ ≤ m.round (m.round (2 * m.M_PI) * squaredNorm m (vsub m x y)) := hmono hle
    refine ⟨hc, hnorm, hdiv, ?_, ?_⟩
    · rw [call_of_ne m x y hne]
      simp [fdiv, flog, hc, hnorm]
    · rw [grad_of_ne m x y hne]
      simp [fdiv, hdiv]
  · have hnorm : norm m (vsub m x y) = 0 := by rw [norm, hsn, hsqrt0]
    have hdiv : m.round (m.round (2 * m.M_PI) * squaredNorm m (vsub m x y)) = 0 := by
      rw [hsn, mul_zero, hzero]
    refine ⟨hnorm, hdiv, ?_, ?_⟩
    · rw [call_of_ne m x y hne]
      simp [fdiv, flog, hc, hnorm]
    · rw [grad_of_ne m x y hne]
      simp [fdiv, hdiv]

/-- C6, as amended. `FundamentalSolution::operator()` and `grad` fail their assertion if and
only if `y = x`. For `y != x` they evaluate `-1/(2*pi) * log(|x - y|)` and
`(x - y) / (2*pi*|x - y|^2)` in the arithmetic of `double`: when the computed squared norm
`|x - y|^2` is not zero, the divisors `2*pi` and `2*pi*|x - y|^2` and the argument of the
logarithm are not zero and both results are finite; when it is zero, the logarithm is
taken of zero and `grad` divides by zero. In exact arithmetic the squared norm is not zero
for `y != x`. The rounding is taken monotone, idempotent and fixing zero, `2.0 * M_PI` at
least one, and `sqrt` zero at zero and positive on positive arguments. -/
theorem FundamentalSolution_defined_unless_underflow (m : CMath K)
    (hzero : m.round 0 = 0) (hmono : Monotone m.round)
    (hidem : ∀ a, m.round (m.round a) = m.round a)
    (hpi : 1 ≤ m.round (2 * m.M_PI))
    (hsqrt : ∀ a, 0 < a → 0 < m.sqrt a) (hsqrt0 : m.sqrt 0 = 0)
    (x y : Fin 2 → K) :
    ((∃ msg, FundamentalSolution.call m ⟨x⟩ y = Except.error msg) ↔ y = x) ∧
    ((∃ msg, FundamentalSolution.grad m ⟨x⟩ y = Except.error msg) ↔ y = x) ∧
    (y ≠ x → squaredNorm m (vsub m x y) ≠ 0 →
      m.round (2 * m.M_PI) ≠ 0 ∧
      norm m (vsub m x y) ≠ 0 ∧
      m.round (m.round (2 * m.M_PI) * squaredNorm m (vsub m x y)) ≠ 0 ∧
      FundamentalSolution.call m ⟨x⟩ y
        = Except.ok (some (m.round (m.round (-1 / m.round (2 * m.M_PI)) *
            m.log (norm m (vsub m x y))))) ∧
      FundamentalSolution.grad m ⟨x⟩ y
        = Except.ok (fun i => some (m.round (vsub m x y i /
            m.round (m.round (2 * m.M_PI) * squaredNorm m (vsub m x y)))))) ∧
    (y ≠ x → squaredNorm m (vsub m x y) = 0 →
      norm m (vsub m x y) = 0 ∧
      m.round (m.round (2 * m.M_PI) * squaredNorm m (vsub m x y)) = 0 ∧
      FundamentalSolution.call m ⟨x⟩ y = Except.ok none ∧
      FundamentalSolution.grad m ⟨x⟩ y = Except.ok (fun _ => none)) ∧
    ((∀ a, m.round a = a) → y ≠ x → squaredNorm m (vsub m x y) ≠ 0) :=
  defined_unless_underflow_cases m hzero hmono hidem hpi hsqrt hsqrt0 x y

/-- The same in binary64, for library functions `sqrt` and `log` with `sqrt(0) = 0` and
`sqrt` positive on positive arguments: past the assertion, the two values are finite
exactly when the computed squared norm is not zero. -/
theorem binary64_defined_unless_underflow (log sqrt : ℚ → ℚ)
    (hsqrt : ∀ a, 0 < a → 0 < sqrt a) (hsqrt0 : sqrt 0 = 0) (x y : Fin 2 → ℚ) (hne : y ≠ x) :
    (squaredNorm (binary64 log sqrt) (vsub (binary64 log sqrt) x y) ≠ 0 →
      norm (binary64 log sqrt) (vsub (binary64 log sqrt) x y) ≠ 0 ∧
      (binary64 log sqrt).round ((binary64 log sqrt).round (2 * (binary64 log sqrt).M_PI) *
        squaredNorm (binary64 log sqrt) (vsub (binary64 log sqrt) x y)) ≠ 0) ∧
    (squaredNorm (binary64 log sqrt) (vsub (binary64 log sqrt) x y) = 0 →
      FundamentalSolution.call (binary64 log sqrt) ⟨x⟩ y = Except.ok none ∧
      FundamentalSolution.grad (binary64 log sqrt) ⟨x⟩ y = Except.ok (fun _ => none)) := by
  obtain ⟨hzero, hmono, hidem, hpi⟩ := binary64_rounding log sqrt
  have h := defined_unless_underflow_cases (binary64 log sqrt) hzero hmono hidem hpi
    hsqrt hsqrt0 x y
  exact ⟨fun hsn => ⟨(h.2.2.1 hne hsn).2.1, (h.2.2.1 hne hsn).2.2.1⟩,
    fun hsn => ⟨(h.2.2.2.1 hne hsn).2.2.1, (h.2.2.2.1 hne hsn).2.2.2⟩⟩

/-- C6, as amended, in exact arithmetic over the real numbers with `M_PI = π`, the real
logarithm and the real square root, for the source point `(1, 0)` and the evaluation
point `(0, 0)`: the assertion passes and `operator()` returns a finite value. -/
theorem FundamentalSolution_defined_unless_underflow_witness :
    (1 ≤ 2 * Real.pi) ∧
    ((![0, 0] : Fin 2 → ℝ) ≠ ![1, 0]) ∧
    FundamentalSolution.call ⟨Real.pi, Real.log, Real.sqrt, fun a => a⟩ ⟨![1, 0]⟩ ![0, 0]
      = Except.ok (some (-1 / (2 * Real.pi) *
          Real.log (norm ⟨Real.pi, Real.log, Real.sqrt, fun a => a⟩
            (vsub ⟨Real.pi, Real.log, Real.sqrt, fun a => a⟩ ![1, 0] ![0, 0])))) :=
  ⟨by linarith [Real.pi_gt_three],
    fun h => by have h0 := congrFun h 0; simp at h0,
    ((FundamentalSolution_defined_unless_underflow
        ⟨Real.pi, Real.log, Real.sqrt, fun a => a⟩ rfl (fun _ _ h => h) (fun _ => rfl)
        (by show (1 : ℝ) ≤ 2 * Real.pi; linarith [Real.pi_gt_three])
        (fun _ ha => Real.sqrt_pos.mpr ha) Real.sqrt_zero ![1, 0] ![0, 0]).2.2.1
      (fun h => by have h0 := congrFun h 0; simp at h0)
      (by simp [squaredNorm, vsub])).2.2.2.1⟩

/-- Underflow of the squared norm in binary64: when `-q` is a double, `q` is not zero and
the square of `q` rounds to zero, the source point `(0, 0)` and the evaluation point
`(q, 0)` pass the assertion, the computed squared norm and the divisor of `grad` are zero,
and with `sqrt(0) = 0` the argument of the logarithm is zero. -/
theorem underflow_of_square (log sqrt : ℚ → ℚ) (q : ℚ) (hq : q ≠ 0)
    (hneg : roundToDouble (-q) = -q) (hsq : roundToDouble (-q * -q) = 0) :
    ((![q, 0] : Fin 2 → ℚ) ≠ ![0, 0]) ∧
    vsub (binary64 log sqrt) ![0, 0] ![q, 0] = ![-q, 0] ∧
    squaredNorm (binary64 log sqrt) (vsub (binary64 log sqrt) ![0, 0] ![q, 0]) = 0 ∧
    (binary64 log sqrt).round ((binary64 log sqrt).round (2 * (binary64 log sqrt).M_PI) *
      squaredNorm (binary64 log sqrt) (vsub (binary64 log sqrt) ![0, 0] ![q, 0])) = 0 ∧
    FundamentalSolution.grad (binary64 log sqrt) ⟨![0, 0]⟩ ![q, 0]
      = Except.ok (fun _ => none) ∧
    (sqrt 0 = 0 →
      norm (binary64 log sqrt) (vsub (binary64 log sqrt) ![0, 0] ![q, 0]) = 0 ∧
      FundamentalSolution.call (binary64 log sqrt) ⟨![0, 0]⟩ ![q, 0] = Except.ok none) := by
  have hne : (![q, 0] : Fin 2 → ℚ) ≠ ![0, 0] := by
    intro h
    have h0 := congrFun h 0
    simp only [Matrix.cons_val_zero] at h0
    exact hq h0
  have hsub : vsub (binary64 log sqrt) ![0, 0] ![q, 0] = ![-q, 0] := by
    funext i
    fin_cases i
    · simp only [vsub, binary64, Fin.zero_eta, Matrix.cons_val_zero, zero_sub]
      exact hneg
    · simp [vsub, binary64, roundToDouble_zero]
  have hsn : squaredNorm (binary64 log sqrt)
      (vsub (binary64 log sqrt) ![0, 0] ![q, 0]) = 0 := by
    rw [hsub]
    simp only [squaredNorm, binary64, Matrix.cons_val_zero, Matrix.cons_val_one,
      Matrix.head_cons, mul_zero, hsq, add_zero, roundToDouble_zero]
  have hdiv : (binary64 log sqrt).round
      ((binary64 log sqrt).round (2 * (binary64 log sqrt).M_PI) *
        squaredNorm (binary64 log sqrt) (vsub (binary64 log sqrt) ![0, 0] ![q, 0])) = 0 := by
    rw [hsn, mul_zero]
    exact roundToDouble_zero
  refine ⟨hne, hsub, hsn, hdiv, ?_, fun hsqrt0 => ?_⟩
  · rw [grad_of_ne _ _ _ hne]
    congr 1
    funext i
    rw [fdiv, if_pos hdiv]
  · have hnorm : norm (binary64 log sqrt)
        (vsub (binary64 log sqrt) ![0, 0] ![q, 0]) = 0 := by
      rw [norm, hsn]
      exact hsqrt0
    refine ⟨hnorm, ?_⟩
    rw [call_of_ne _ _ _ hne]
    congr 1
    rw [flog, if_pos hnorm]
    cases fdiv (binary64 log sqrt) (-1)
      ((binary64 log sqrt).round (2 * (binary64 log sqrt).M_PI)) <;> rfl

/-- The square of `2^-600` underflows: it rounds to zero. -/
theorem roundToDouble_square_underflow :
    roundToDouble (-(2 : ℚ) ^ (-600 : ℤ) * -(2 : ℚ) ^ (-600 : ℤ)) = 0 := by
  apply roundToDouble_underflow
  · exact mul_pos_of_neg_of_neg (neg_lt_zero.mpr (zpow_pos (by norm_num) _))
      (neg_lt_zero.mpr (zpow_pos (by norm_num) _))
  · rw [neg_mul_neg, ← zpow_add₀ (by norm_num : (2 : ℚ) ≠ 0)]
    exact zpow_lt_zpow_right₀ (by norm_num) (by norm_num)

/-- C6 as stated fails in binary64. For the source point `x = (0, 0)` and the evaluation
point `y = (2^-600, 0)` the points differ, so the assertion passes; the difference is
exact, its square `2^-1200` underflows to zero, so the computed squared norm is zero, the
divisor `2*pi*|x - y|^2` of `grad` is zero and both coefficients of its result are not
finite; and with `sqrt(0) = 0` the norm is zero and `operator()` takes the logarithm of
zero. This holds whatever the library functions `log` and `sqrt` are otherwise. -/
theorem FundamentalSolution_underflow :
    ((![(2 : ℚ) ^ (-600 : ℤ), 0] : Fin 2 → ℚ) ≠ ![0, 0]) ∧
    ∀ log sqrt : ℚ → ℚ,
      vsub (binary64 log sqrt) ![0, 0] ![(2 : ℚ) ^ (-600 : ℤ), 0]
        = ![-(2 : ℚ) ^ (-600 : ℤ), 0] ∧
      squaredNorm (binary64 log sqrt)
        (vsub (binary64 log sqrt) ![0, 0] ![(2 : ℚ) ^ (-600 : ℤ), 0]) = 0 ∧
      (binary64 log sqrt).round ((binary64 log sqrt).round (2 * (binary64 log sqrt).M_PI) *
        squaredNorm (binary64 log sqrt)
          (vsub (binary64 log sqrt) ![0, 0] ![(2 : ℚ) ^ (-600 : ℤ), 0])) = 0 ∧
      FundamentalSolution.grad (binary64 log sqrt) ⟨![0, 0]⟩ ![(2 : ℚ) ^ (-600 : ℤ), 0]
        = Except.ok (fun _ => none) ∧
      (sqrt 0 = 0 →
        norm (binary64 log sqrt)
          (vsub (binary64 log sqrt) ![0, 0] ![(2 : ℚ) ^ (-600 : ℤ), 0]) = 0 ∧
        FundamentalSolution.call (binary64 log sqrt) ⟨![0, 0]⟩ ![(2 : ℚ) ^ (-600 : ℤ), 0]
          = Except.ok none) :=
  ⟨(underflow_of_square id id ((2 : ℚ) ^ (-600 : ℤ)) (zpow_ne_zero _ (by norm_num))
      (roundToDouble_neg_zpow (-600) (by norm_num)) roundToDouble_square_underflow).1,
    fun log sqrt =>
      (underflow_of_square log sqrt ((2 : ℚ) ^ (-600 : ℤ)) (zpow_ne_zero _ (by norm_num))
        (roundToDouble_neg_zpow (-600) (by norm_num)) roundToDouble_square_underflow).2⟩

/-- C10. `StablePointEvaluation` evaluates only the points that fulfil its assumption: if
`|x - (0.5, 0.5)| <= 0.25` the result is that of `Jstar(fe_space, uFE, x)` and nothing is
written to `std::cerr`; otherwise `Jstar` is not evaluated (whatever it would do there),
the result is `0.0` and the line "The point does not fulfill the assumptions" is written. -/
theorem StablePointEvaluation_spec {FeSpace : Type} (m : CMath K)
    (Jstar : FeSpace → VectorXd K → (Fin 2 → K) → Except String K)
    (fe_space : FeSpace) (uFE : VectorXd K) (x : Fin 2 → K) (cerr : List String) :
    (norm m (vsub m x ![1 / 2, 1 / 2]) ≤ 1 / 4 →
      StablePointEvaluation m Jstar fe_space uFE x cerr
        = (Jstar fe_space uFE x).map (fun res => (res, cerr))) ∧
    (¬ norm m (vsub m x ![1 / 2, 1 / 2]) ≤ 1 / 4 →
      StablePointEvaluation m Jstar fe_space uFE x cerr
        = Except.ok (0, cerr ++ ["The point does not fulfill the assumptions"])) := by
  constructor
  · intro h
    simp only [StablePointEvaluation, h, if_true]
    cases Jstar fe_space uFE x <;> rfl
  · intro h
    simp only [StablePointEvaluation, h, if_false]
    rfl

end StableEvaluationAtAPoint
